import Mathlib

/-!
Verification of the REIGN battlefield simulation backend: a shallow embedding
of the grid pathfinder, movement system, spatial hash, combat resolver and
conquest/elimination logic, together with proofs of the specified properties.

Machine integers and floats from the source are modelled with `Nat`, `Int`
and `Rat`; Python dictionaries are modelled as association lists with
overwrite-on-insert semantics; Python's `int(x)` conversion (truncation
toward zero) is `pyTrunc`.  Unit identifiers are decimal strings of a
counter in the source and are modelled by the counter value itself (`Nat`).
-/

/-- Python `int(x)` applied to a real value: truncation toward zero. -/
def pyTrunc (q : ℚ) : ℤ :=
  if 0 ≤ q then ⌊q⌋ else ⌈q⌉

/-- A grid position (`Position` in `models/unit.py`): integer coordinates on
the 40x40 board, non-negative by the pydantic field constraints. -/
structure Position where
  x : ℕ
  y : ℕ
deriving DecidableEq, Repr

/-- `Pathfinder.manhattan_distance` / the inline distance computations:
Manhattan distance between two positions. -/
def mdist (p q : Position) : ℕ :=
  (max p.x q.x - min p.x q.x) + (max p.y q.y - min p.y q.y)

theorem mdist_comm (p q : Position) : mdist p q = mdist q p := by
  simp [mdist, max_comm, min_comm]

theorem mdist_self (p : Position) : mdist p p = 0 := by
  simp [mdist]

theorem mdist_eq_zero {p q : Position} (h : mdist p q = 0) : p = q := by
  rcases p with ⟨px, py⟩
  rcases q with ⟨qx, qy⟩
  simp only [mdist, Nat.add_eq_zero] at h
  obtain ⟨hx, hy⟩ := h
  have hx' : px = qx := by omega
  have hy' : py = qy := by omega
  simp [hx', hy']

theorem mdist_triangle (p q r : Position) : mdist p r ≤ mdist p q + mdist q r := by
  rcases p with ⟨px, py⟩
  rcases q with ⟨qx, qy⟩
  rcases r with ⟨rx, ry⟩
  simp only [mdist]
  omega

/-- Association-list lookup, modelling Python `dict.get` / `in` checks.
Python dictionaries keep at most one entry per key; `aset` below preserves
that, so `alookup` is the dictionary lookup. -/
def alookup {κ ν : Type} [DecidableEq κ] (l : List (κ × ν)) (k : κ) : Option ν :=
  match l with
  | [] => none
  | (k', v) :: t => if k' = k then some v else alookup t k

/-- Association-list insert/overwrite, modelling Python `d[k] = v`:
replaces the existing entry in place, otherwise appends. -/
def aset {κ ν : Type} [DecidableEq κ] (l : List (κ × ν)) (k : κ) (v : ν) : List (κ × ν) :=
  match l with
  | [] => [(k, v)]
  | (k', v') :: t => if k' = k then (k, v) :: t else (k', v') :: aset t k v

/-- Association-list removal, modelling Python `del d[k]` / `d.pop(k, None)`. -/
def adel {κ ν : Type} [DecidableEq κ] (l : List (κ × ν)) (k : κ) : List (κ × ν) :=
  l.filter (fun e => e.1 ≠ k)

theorem alookup_aset {κ ν : Type} [DecidableEq κ] (l : List (κ × ν)) (k : κ) (v : ν) :
    alookup (aset l k v) k = some v := by
  induction l with
  | nil => simp [aset, alookup]
  | cons e t ih =>
    rcases e with ⟨k', v'⟩
    by_cases h : k' = k
    · simp [aset, h, alookup]
    · simp [aset, h, alookup, ih]

theorem alookup_aset_ne {κ ν : Type} [DecidableEq κ] (l : List (κ × ν)) (k k' : κ) (v : ν)
    (h : k ≠ k') : alookup (aset l k v) k' = alookup l k' := by
  induction l with
  | nil => simp [aset, alookup, h]
  | cons e t ih =>
    rcases e with ⟨k₀, v₀⟩
    by_cases h₀ : k₀ = k
    · have h₂ : ¬ k₀ = k' := by rw [h₀]; exact h
      have h₃ : ¬ k = k' := h
      simp [aset, alookup, h₀, h₂, h₃]
    · by_cases h₁ : k₀ = k'
      · have h₂ : ¬ k' = k := fun hh => h hh.symm
        simp [aset, alookup, h₁, h₂]
      · simp [aset, h₀, alookup, h₁, ih]

theorem alookup_adel {κ ν : Type} [DecidableEq κ] (l : List (κ × ν)) (k : κ) :
    alookup (adel l k) k = none := by
  induction l with
  | nil => simp [adel, alookup]
  | cons e t ih =>
    rcases e with ⟨k₀, v₀⟩
    by_cases h : k₀ = k
    · simpa [adel, h] using ih
    · simpa [adel, alookup, h] using ih

theorem alookup_adel_ne {κ ν : Type} [DecidableEq κ] (l : List (κ × ν)) (k k' : κ)
    (h : k ≠ k') : alookup (adel l k) k' = alookup l k' := by
  induction l with
  | nil => simp [adel, alookup]
  | cons e t ih =>
    rcases e with ⟨k₀, v₀⟩
    by_cases h₀ : k₀ = k
    · have h₂ : ¬ k₀ = k' := by rw [h₀]; exact h
      simpa [adel, alookup, h₀, h₂, h] using ih
    · by_cases h₁ : k₀ = k'
      · have h₂ : ¬ k' = k := fun hh => h hh.symm
        simp [adel, alookup, h₁, h₂]
      · simpa [adel, alookup, h₀, h₁] using ih

/-- Resource pool of a player (`Player.resources`, a `Dict[str, int]` whose
entries are always the three keys `gold`, `food`, `faith`). -/
structure PlayerResources where
  gold : ℤ
  food : ℤ
  faith : ℤ
deriving DecidableEq, Repr

/-- `Player` from `models/game_state.py`, restricted to the fields the
conquest/elimination logic reads or writes (`capital_hp` has a `ge=0`
pydantic constraint, hence `ℕ`). -/
structure Player where
  id : ℕ
  isEliminated : Bool
  resources : PlayerResources
  capitalHp : ℕ
deriving DecidableEq, Repr

/-- One step of the loop body of `ConquestSystem.check_elimination`,
threading (updated players, eliminated ids, active ids). -/
def checkElimStep (acc : List Player × List ℕ × List ℕ) (p : Player) :
    List Player × List ℕ × List ℕ :=
  if p.capitalHp ≤ 0 then
    if ¬p.isEliminated then
      (acc.1 ++ [{ p with isEliminated := true }], acc.2.1 ++ [p.id], acc.2.2)
    else
      (acc.1 ++ [p], acc.2.1, acc.2.2)
  else
    (acc.1 ++ [p], acc.2.1, acc.2.2 ++ [p.id])

/-- `ConquestSystem.check_elimination`: returns the (mutated) player list,
the newly eliminated player ids and the winner, which is the sole "active"
player (`capital_hp > 0`) when exactly one exists. -/
def checkElimination (players : List Player) : List Player × List ℕ × Option ℕ :=
  let r := players.foldl checkElimStep ([], [], [])
  let winner : Option ℕ :=
    if r.2.2.length = 1 then r.2.2.head? else none
  (r.1, r.2.1, winner)

theorem checkElimStep_fold (players : List Player) (ps : List Player)
    (el ac : List ℕ) :
    players.foldl checkElimStep (ps, el, ac) =
      (ps ++ players.map (fun p =>
          if p.capitalHp = 0 then { p with isEliminated := true } else p),
       el ++ (players.filter (fun p => p.capitalHp = 0 ∧ p.isEliminated = false)).map Player.id,
       ac ++ (players.filter (fun p => 0 < p.capitalHp)).map Player.id) := by
  induction players generalizing ps el ac with
  | nil => simp
  | cons p t ih =>
    rcases p with ⟨i, e, r, c⟩
    simp only [List.foldl_cons, checkElimStep]
    by_cases h : c ≤ 0
    · have h0 : c = 0 := by omega
      subst h0
      cases e
      · simp [ih]
      · simp [ih]
    · have h0 : ¬ c = 0 := by omega
      have hp : 0 < c := by omega
      simp [h, h0, hp, ih]

/-- Claim C7: `check_elimination` adds each player with `capital_hp ≤ 0` not
already marked eliminated to the eliminated list exactly once and marks them,
so an immediately repeated call returns an empty eliminated list; the winner
is the unique player with `capital_hp > 0` when exactly one such player
exists, and `none` when zero or at least two such players remain. -/
theorem checkElimination_spec (players : List Player) :
    (checkElimination players).2.1 =
        (players.filter (fun p => p.capitalHp = 0 ∧ p.isEliminated = false)).map Player.id ∧
      (checkElimination (checkElimination players).1).2.1 = [] ∧
      (∀ p ∈ (checkElimination players).1, p.capitalHp = 0 → p.isEliminated = true) ∧
      (checkElimination players).2.2 =
        (match players.filter (fun p => 0 < p.capitalHp) with
         | [p] => some p.id
         | _ => none) := by
  have hgen : ∀ ps : List Player, (checkElimination ps).2.1 =
      (ps.filter (fun p => p.capitalHp = 0 ∧ p.isEliminated = false)).map Player.id := by
    intro ps
    have hf := checkElimStep_fold ps [] [] []
    simp [checkElimination, hf]
  have hmark : ∀ p ∈ (checkElimination players).1, p.capitalHp = 0 → p.isEliminated = true := by
    intro p hp hcap
    have hf := checkElimStep_fold players [] [] []
    simp only [checkElimination, hf, List.nil_append] at hp
    rcases List.mem_map.mp hp with ⟨q, _, hq⟩
    by_cases h : q.capitalHp = 0
    · simp only [h, if_true] at hq
      rw [← hq]
    · simp only [h, if_false] at hq
      rw [← hq] at hcap
      omega
  refine ⟨hgen players, ?_, hmark, ?_⟩
  · rw [hgen _]
    have hnil : (checkElimination players).1.filter
        (fun p => p.capitalHp = 0 ∧ p.isEliminated = false) = [] := by
      apply List.filter_eq_nil_iff.mpr
      intro p hp
      have := hmark p hp
      by_cases h : p.capitalHp = 0 <;> simp_all
    rw [hnil]
    rfl
  · have hf := checkElimStep_fold players [] [] []
    simp only [checkElimination, hf, List.nil_append]
    rcases hfl : players.filter (fun p => 0 < p.capitalHp) with _ | ⟨p, t⟩
    · simp [hfl]
    · rcases t with _ | ⟨q, t'⟩
      · simp [hfl]
      · simp [hfl]

/-- `UnitType` from `models/unit.py`. -/
inductive UnitType where
  | infantry
  | archer
  | knight
  | siege
deriving DecidableEq, Repr

/-- `UnitStatus` from `models/unit.py`. -/
inductive UnitStatus where
  | idle
  | moving
  | attacking
  | dead
  | training
deriving DecidableEq, Repr

/-- `CombatEffectiveness`: damage multipliers against each unit type and
against buildings. -/
structure CombatEffectiveness where
  infantry : ℚ
  archer : ℚ
  knight : ℚ
  siege : ℚ
  building : ℚ
deriving DecidableEq, Repr

/-- `UnitMetadata`, restricted to the `effectiveness` field (the training
fields are not involved in the verified operations). -/
structure UnitMetadata where
  effectiveness : Option CombatEffectiveness
deriving DecidableEq, Repr

/-- Kind tag of `Target.type` (the source uses the strings `"tile"` and
`"unit"`). -/
inductive TargetKind where
  | tile
  | unitTarget
deriving DecidableEq, Repr

/-- `Target` from `models/unit.py`. -/
structure TargetRef where
  kind : TargetKind
  id : ℕ
  position : Position
deriving DecidableEq, Repr

/-- `Unit` from `models/unit.py` (named `GameUnit` because `Unit` is taken
by Lean's core).  `hp`, `attack`, `defense` carry `ge=0` pydantic
constraints, hence `ℕ`. -/
structure GameUnit where
  id : ℕ
  utype : UnitType
  owner : ℕ
  position : Position
  hp : ℕ
  maxHp : ℕ
  attack : ℕ
  defense : ℕ
  speed : ℚ
  range : ℕ
  status : UnitStatus
  target : Option TargetRef
  lastAction : Option ℚ
  metadata : Option UnitMetadata
deriving DecidableEq, Repr

/-- `Unit.get_combat_multiplier`: effectiveness multiplier against a target
unit type; 1.0 when metadata or the effectiveness table is absent.  The
source looks the type string up in `model_dump()` with default 1.0; the
four unit-type keys are always present, so the lookup always hits. -/
def GameUnit.getCombatMultiplier (u : GameUnit) (targetType : UnitType) : ℚ :=
  match u.metadata with
  | none => 1
  | some m =>
    match m.effectiveness with
    | none => 1
    | some e =>
      match targetType with
      | .infantry => e.infantry
      | .archer => e.archer
      | .knight => e.knight
      | .siege => e.siege

/-- `Unit.calculate_damage`: `int(base_damage * multiplier)`. -/
def GameUnit.calculateDamage (u target : GameUnit) : ℤ :=
  pyTrunc ((u.attack : ℚ) * u.getCombatMultiplier target.utype)

/-- `Unit.is_in_range`: Manhattan distance to the target position is at most
the unit's attack range. -/
def GameUnit.isInRange (u : GameUnit) (targetPos : Position) : Bool :=
  mdist u.position targetPos ≤ u.range

/-- `Unit.take_damage`: clamps hp at 0, sets status Dead when the resulting
hp is `≤ 0`, and reports whether the unit died. -/
def GameUnit.takeDamage (u : GameUnit) (damage : ℤ) : GameUnit × Bool :=
  let hp' := (max 0 ((u.hp : ℤ) - damage)).toNat
  if hp' ≤ 0 then ({ u with hp := hp', status := .dead }, true)
  else ({ u with hp := hp' }, false)

/-- `TileType` from `models/tile.py`. -/
inductive TileType where
  | capitalCity
  | city
  | field
  | monastery
  | marsh
  | mine
  | orchard
  | barracks
  | watchtower
deriving DecidableEq, Repr

/-- `Resources` from `models/tile.py` (all fields have `ge=0`). -/
structure TileResources where
  gold : ℕ
  food : ℕ
  faith : ℕ
deriving DecidableEq, Repr

/-- `TileMetadata`, restricted to the `aura_radius` field (the only one the
verified operations read). -/
structure TileMetadata where
  auraRadius : ℕ
deriving DecidableEq, Repr

/-- `Tile` from `models/tile.py`, restricted to the fields the conquest and
combat logic reads or writes. -/
structure Tile where
  id : ℕ
  ttype : TileType
  x : ℕ
  y : ℕ
  hp : ℕ
  maxHp : ℕ
  owner : Option ℕ
  resources : TileResources
  metadata : Option TileMetadata
deriving DecidableEq, Repr

/-- The `resources_stolen` dictionary of a `RaidResult`; a key is present in
the source dictionary exactly when its amount is positive, so a zero field
here models an absent key (adding 0 or clamped-subtracting 0 is a no-op, so
the behaviour of `apply_raid_resources` is unchanged). -/
structure StolenResources where
  gold : ℕ
  food : ℕ
  faith : ℕ
deriving DecidableEq, Repr

/-- `RaidResult` from `conquest_system.py`. -/
structure RaidResult where
  success : Bool
  resourcesStolen : StolenResources
  attackerPosition : Position
  targetPosition : Position
  attackerId : ℕ
  targetTileId : ℕ
  timestamp : ℚ
deriving DecidableEq, Repr

/-- `AuraEffect` from `conquest_system.py`. -/
structure AuraEffect where
  sourcePosition : Position
  radius : ℕ
  defenseMultiplier : ℚ
  ownerId : ℕ
deriving DecidableEq, Repr

/-- `ConquestSystem` state: the recomputed auras and the raid history. -/
structure ConquestSystem where
  activeAuras : List AuraEffect
  raidHistory : List RaidResult
deriving DecidableEq, Repr

/-- The aura radius used by `ConquestSystem.update_auras`: the tile
metadata's `aura_radius` when metadata is present (a `TileMetadata` object
always has the attribute), otherwise the default 2. -/
def tileAuraRadius (t : Tile) : ℕ :=
  match t.metadata with
  | some m => m.auraRadius
  | none => 2

/-- `ConquestSystem.update_auras`: one aura per owned watchtower tile, with
defense multiplier 1.25. -/
def updateAuras (tiles : List Tile) : List AuraEffect :=
  tiles.filterMap (fun t =>
    match t.owner with
    | some o =>
      if t.ttype = .watchtower then
        some { sourcePosition := ⟨t.x, t.y⟩, radius := tileAuraRadius t,
               defenseMultiplier := 5 / 4, ownerId := o }
      else none
    | none => none)

/-- `ConquestSystem.get_defense_multiplier`: best multiplier among friendly
auras covering the unit's position (Manhattan), defaulting to 1.0. -/
def ConquestSystem.getDefenseMultiplier (cs : ConquestSystem) (u : GameUnit) : ℚ :=
  if cs.activeAuras = [] then 1
  else
    cs.activeAuras.foldl (fun best a =>
      if a.ownerId ≠ u.owner then best
      else if mdist u.position a.sourcePosition ≤ a.radius then
        max best a.defenseMultiplier
      else best) 1

/-- The 10% floored share of a tile's resource pool computed by
`ConquestSystem.execute_raid`.  The source computes `int(amount * 0.1)` in
floating point, which equals `amount / 10` (floor division) for all
representable amounts, since `amount/10` is never within one double ulp of a
larger integer. -/
def stolenShare (r : TileResources) : StolenResources :=
  ⟨r.gold / 10, r.food / 10, r.faith / 10⟩

/-- `ConquestSystem.execute_raid`: builds the `RaidResult` (success iff some
stolen amount is positive), appends it to the raid history, and returns it.
It performs no range, ownership or resource checks and mutates neither the
tile nor any player. -/
def ConquestSystem.executeRaid (cs : ConquestSystem) (attacker : GameUnit) (tile : Tile)
    (now : ℚ) : ConquestSystem × RaidResult :=
  let stolen := stolenShare tile.resources
  let result : RaidResult :=
    { success := decide (0 < stolen.gold ∨ 0 < stolen.food ∨ 0 < stolen.faith),
      resourcesStolen := stolen,
      attackerPosition := attacker.position,
      targetPosition := ⟨tile.x, tile.y⟩,
      attackerId := attacker.id,
      targetTileId := tile.id,
      timestamp := now }
  ({ cs with raidHistory := cs.raidHistory ++ [result] }, result)

/-- `ConquestSystem.apply_raid_resources`: on success, adds each stolen
amount to the attacking player's pool and subtracts it, clamped at 0, from
the target player's pool (when a target player exists).  The tile itself is
not touched. -/
def applyRaidResources (r : RaidResult) (attackerP : Player) (targetP : Option Player) :
    Player × Option Player :=
  if r.success = false then (attackerP, targetP)
  else
    let s := r.resourcesStolen
    let a := attackerP.resources
    let attackerP' := { attackerP with resources :=
      ⟨a.gold + s.gold, a.food + s.food, a.faith + s.faith⟩ }
    let targetP' := targetP.map (fun t => { t with resources :=
      ⟨max 0 (t.resources.gold - s.gold), max 0 (t.resources.food - s.food),
       max 0 (t.resources.faith - s.faith)⟩ })
    (attackerP', targetP')

/-- `ConquestSystem.can_raid_tile`: the attacker must be in range, the tile
must not belong to the attacker, and some resource amount must be positive
(`target_tile.resources` itself is a required pydantic model, hence always
truthy). -/
def ConquestSystem.canRaidTile (attacker : GameUnit) (tile : Tile) : Bool :=
  if ¬ attacker.isInRange ⟨tile.x, tile.y⟩ then false
  else if tile.owner = some attacker.owner then false
  else decide (0 < tile.resources.gold ∨ 0 < tile.resources.food ∨ 0 < tile.resources.faith)

/-- The raid command pipeline of `handle_raid_tile` in `main.py` (after the
unit/tile lookups): reject unless `can_raid_tile`, execute the raid, and on
success apply the resource changes to the two players.  The target tile is
returned as the handler leaves it: unchanged. -/
def raidPipeline (cs : ConquestSystem) (unit : GameUnit) (tile : Tile)
    (attackerP : Player) (targetP : Option Player) (now : ℚ) :
    Option (ConquestSystem × Tile × Player × Option Player × RaidResult) :=
  if ConquestSystem.canRaidTile unit tile = false then none
  else
    let er := cs.executeRaid unit tile now
    if er.2.success then
      let ap := applyRaidResources er.2 attackerP targetP
      some (er.1, tile, ap.1, ap.2, er.2)
    else
      some (er.1, tile, attackerP, targetP, er.2)

/-- The player-list mutation pattern of `game_room.py`/`main.py`: scan for
the first player with the given id, update it in place, leave the rest
unchanged (and do nothing when no player matches). -/
def updateFirstPlayer (players : List Player) (pid : ℕ) (f : Player → Player) : List Player :=
  match players with
  | [] => []
  | p :: t => if p.id = pid then f p :: t else p :: updateFirstPlayer t pid f

/-- The capital hit-point rescaling of `handle_tile_attack` in `main.py` and
`GameRoom._handle_tile_attack_event`: `capital_hp = max(0,
int(capital_hp * new_tile_hp / tile_max_hp))`, with the `game_room.py`
guard that a zero `max_hp` yields fraction 0. -/
def capitalRescale (newHp tileMaxHp : ℕ) (p : Player) : Player :=
  let hpFrac : ℚ := if 0 < tileMaxHp then (newHp : ℚ) / (tileMaxHp : ℚ) else 0
  { p with capitalHp := (max 0 (pyTrunc ((p.capitalHp : ℚ) * hpFrac))).toNat }

/-- The tile-attack state update of `handle_tile_attack` in `main.py`
(lines 948-971), identical in effect to `GameRoom._handle_tile_attack_event`
applied to the event it would receive: clamp the tile's hp, rescale the
owning player's `capital_hp` when the tile is a capital city, and clear the
owner when the tile is destroyed. -/
def applyTileAttack (tile : Tile) (damage : ℤ) (players : List Player) :
    Tile × List Player :=
  let newHp := (max 0 ((tile.hp : ℤ) - damage)).toNat
  let destroyed := decide (newHp = 0)
  let tile1 := { tile with hp := newHp }
  let players' :=
    match tile.owner with
    | some o =>
      if tile.ttype = .capitalCity then
        updateFirstPlayer players o (capitalRescale newHp tile.maxHp)
      else players
    | none => players
  (if destroyed then { tile1 with owner := none } else tile1, players')

/-- Claim C10: `execute_raid` enforces no precondition: whenever some
resource amount of the tile is at least 10 (so its floored 10% share is
positive) the raid reports success, and the result is completely
independent of the attacker's and the tile's owners (and of the attacker's
position relative to the tile beyond recording it); the range/ownership
checks exist only in the separate `can_raid_tile` predicate, never
consulted by `execute_raid`. -/
theorem executeRaid_ignores_preconditions (cs : ConquestSystem) (attacker : GameUnit)
    (tile : Tile) (now : ℚ)
    (h : 10 ≤ tile.resources.gold ∨ 10 ≤ tile.resources.food ∨ 10 ≤ tile.resources.faith) :
    (cs.executeRaid attacker tile now).2.success = true ∧
      ∀ (o : ℕ) (w : Option ℕ),
        (cs.executeRaid { attacker with owner := o } { tile with owner := w } now).2 =
          (cs.executeRaid attacker tile now).2 := by
  constructor
  · have hdiv : ∀ n : ℕ, 10 ≤ n → 0 < n / 10 := by
      intro n hn
      omega
    simp only [ConquestSystem.executeRaid, stolenShare, decide_eq_true_eq]
    rcases h with h | h | h
    · exact Or.inl (hdiv _ h)
    · exact Or.inr (Or.inl (hdiv _ h))
    · exact Or.inr (Or.inr (hdiv _ h))
  · intro o w
    rfl

/-- An infantry unit fixture (owner 1, range 1) used by the concrete raid
scenarios. -/
def raidAttacker : GameUnit :=
  { id := 7, utype := .infantry, owner := 1, position := ⟨10, 10⟩, hp := 100, maxHp := 100,
    attack := 20, defense := 15, speed := 1, range := 1, status := .idle, target := none,
    lastAction := none, metadata := none }

/-- A tile fixture owned by the attacker's own player, far out of range,
with a rich resource pool. -/
def ownDistantTile : Tile :=
  { id := 3, ttype := .city, x := 30, y := 30, hp := 100, maxHp := 100, owner := some 1,
    resources := ⟨100, 50, 25⟩, metadata := none }

theorem executeRaid_ignores_preconditions_witness :
    (10 ≤ ownDistantTile.resources.gold ∨ 10 ≤ ownDistantTile.resources.food ∨
        10 ≤ ownDistantTile.resources.faith) ∧
      ((ConquestSystem.mk [] []).executeRaid raidAttacker ownDistantTile 0).2.success = true ∧
      ConquestSystem.canRaidTile raidAttacker ownDistantTile = false :=
  ⟨by decide,
   (executeRaid_ignores_preconditions (ConquestSystem.mk [] [])
      raidAttacker ownDistantTile 0 (by decide)).1,
   by decide⟩

/-- An enemy-owned tile adjacent to `raidAttacker`, with the resource pool
from the reference scenario. -/
def enemyRichTile : Tile :=
  { id := 4, ttype := .city, x := 11, y := 10, hp := 100, maxHp := 100, owner := some 2,
    resources := ⟨100, 50, 25⟩, metadata := none }

/-- Attacking player fixture for the raid scenarios. -/
def raidAttackerPlayer : Player :=
  { id := 1, isEliminated := false, resources := ⟨100, 100, 100⟩, capitalHp := 100 }

/-- Target player fixture for the raid scenarios. -/
def raidTargetPlayer : Player :=
  { id := 2, isEliminated := false, resources := ⟨200, 150, 50⟩, capitalHp := 100 }

/-- Claim C5, counterexample: in the full raid pipeline against an adjacent
enemy tile holding `{gold:100, food:50, faith:25}` the raid succeeds and the
`{10, 5, 2}` stolen amounts are credited to the attacking player, yet the
target tile's own resource pool is left at 100 gold: nothing is transferred
out of the tile's pool (the debit, clamped at 0, hits the target player's
pool instead), contradicting the claim that 10% is transferred from the
target tile's resource pool. -/
theorem raid_tile_pool_unchanged_counterexample :
    ((raidPipeline (ConquestSystem.mk [] []) raidAttacker enemyRichTile
        raidAttackerPlayer (some raidTargetPlayer) 0).map
          (fun st => st.2.2.2.2.resourcesStolen)) = some ⟨10, 5, 2⟩ ∧
      ((raidPipeline (ConquestSystem.mk [] []) raidAttacker enemyRichTile
        raidAttackerPlayer (some raidTargetPlayer) 0).map
          (fun st => st.2.2.1.resources.gold)) = some 110 ∧
      ((raidPipeline (ConquestSystem.mk [] []) raidAttacker enemyRichTile
        raidAttackerPlayer (some raidTargetPlayer) 0).map
          (fun st => st.2.1.resources.gold)) = some 100 ∧
      ¬ ((raidPipeline (ConquestSystem.mk [] []) raidAttacker enemyRichTile
        raidAttackerPlayer (some raidTargetPlayer) 0).map
          (fun st => st.2.1.resources.gold)) = some (100 - 10) := by
  refine ⟨by decide, by decide, by decide, by decide⟩

/-- Claim C5, amended: `execute_raid` computes the floored 10% share of each
resource of the target tile (success iff some share is positive, i.e. some
amount is at least 10); on success `apply_raid_resources` adds the shares to
the attacking player's resource pool and subtracts them, clamped at 0, from
the target player's resource pool, while the tile's own resource pool is
never modified; a raid against a tile whose resources are all zero reports
`success = false` and leaves both players unchanged. -/
theorem raid_amended_spec (cs : ConquestSystem) (u : GameUnit) (tile : Tile)
    (ap tp : Player) (now : ℚ) :
    ((cs.executeRaid u tile now).2.resourcesStolen = stolenShare tile.resources) ∧
      ((cs.executeRaid u tile now).2.success = true ↔
        (10 ≤ tile.resources.gold ∨ 10 ≤ tile.resources.food ∨ 10 ≤ tile.resources.faith)) ∧
      ((cs.executeRaid u tile now).2.success = true →
        applyRaidResources (cs.executeRaid u tile now).2 ap (some tp) =
          ({ ap with resources :=
              ⟨ap.resources.gold + (tile.resources.gold / 10 : ℕ),
               ap.resources.food + (tile.resources.food / 10 : ℕ),
               ap.resources.faith + (tile.resources.faith / 10 : ℕ)⟩ },
           some { tp with resources :=
              ⟨max 0 (tp.resources.gold - (tile.resources.gold / 10 : ℕ)),
               max 0 (tp.resources.food - (tile.resources.food / 10 : ℕ)),
               max 0 (tp.resources.faith - (tile.resources.faith / 10 : ℕ))⟩ })) ∧
      (∀ st, raidPipeline cs u tile ap (some tp) now = some st → st.2.1 = tile) ∧
      (tile.resources = ⟨0, 0, 0⟩ →
        (cs.executeRaid u tile now).2.success = false ∧
          applyRaidResources (cs.executeRaid u tile now).2 ap (some tp) = (ap, some tp)) := by
  refine ⟨rfl, ?_, ?_, ?_, ?_⟩
  · simp only [ConquestSystem.executeRaid, stolenShare, decide_eq_true_eq]
    omega
  · intro hs
    simp only [applyRaidResources, hs]
    rfl
  · intro st hst
    simp only [raidPipeline] at hst
    split at hst
    · exact absurd hst (by simp)
    · split at hst
      · injection hst with h1
        rw [← h1]
      · injection hst with h1
        rw [← h1]
  · intro hz
    constructor
    · simp [ConquestSystem.executeRaid, stolenShare, hz]
    · simp [applyRaidResources, ConquestSystem.executeRaid, stolenShare, hz]

theorem raid_amended_spec_witness :
    (10 ≤ enemyRichTile.resources.gold ∨ 10 ≤ enemyRichTile.resources.food ∨
        10 ≤ enemyRichTile.resources.faith) ∧
      ((ConquestSystem.mk [] []).executeRaid raidAttacker enemyRichTile 0).2.success = true :=
  ⟨by decide,
   ((raid_amended_spec (ConquestSystem.mk [] []) raidAttacker enemyRichTile
      raidAttackerPlayer raidTargetPlayer 0).2.1).mpr (by decide)⟩

/-- A capital-city tile fixture (hp 10, max hp 40, owner player 1). -/
def capitalTile : Tile :=
  { id := 5, ttype := .capitalCity, x := 0, y := 0, hp := 10, maxHp := 40, owner := some 1,
    resources := ⟨0, 0, 0⟩, metadata := none }

/-- The owner of `capitalTile`, with 100 capital hit points. -/
def capitalOwner : Player :=
  { id := 1, isEliminated := false, resources := ⟨0, 0, 0⟩, capitalHp := 100 }

/-- Claim C6, counterexample: 7 damage to `capitalTile` leaves the tile at
hp 3 of 40, and the code rescales the owner's `capital_hp` to
`int(100 * 3/40) = 7`, while the claimed formula `round(100 * 3/40)` gives
8: the code truncates instead of rounding. -/
theorem capital_rescale_counterexample :
    ((applyTileAttack capitalTile 7 [capitalOwner]).2.map Player.capitalHp) = [7] ∧
      round ((100 : ℚ) * 3 / 40) = 8 ∧
      ¬ ((applyTileAttack capitalTile 7 [capitalOwner]).2.map Player.capitalHp) =
        [(round ((100 : ℚ) * 3 / 40)).toNat] := by
  have hfl : ⌊(100 : ℚ) * (3 / 40)⌋ = 7 := by
    rw [show ((100 : ℚ) * (3 / 40)) = 15 / 2 by norm_num]
    rw [Int.floor_eq_iff]
    norm_num
  have hround : round ((100 : ℚ) * 3 / 40) = 8 := by
    rw [round_eq]
    rw [show ((100 : ℚ) * 3 / 40 + 1 / 2) = 8 by norm_num]
    exact_mod_cast Int.floor_intCast 8
  have hmap : ((applyTileAttack capitalTile 7 [capitalOwner]).2.map Player.capitalHp) = [7] := by
    have hres : (capitalRescale 3 40
        { id := 1, isEliminated := false, resources := ⟨0, 0, 0⟩, capitalHp := 100 }).capitalHp
        = 7 := by
      simp only [capitalRescale, pyTrunc]
      norm_num [hfl]
      rfl
    simp only [applyTileAttack, capitalTile, updateFirstPlayer, capitalOwner]
    norm_num
    rw [show Int.toNat 3 = 3 from rfl]
    exact hres
  refine ⟨hmap, hround, ?_⟩
  rw [hmap, hround]
  decide

/-- Claim C6, amended: whenever a capital-city tile with an owner takes
damage, the tile's hp is clamped at 0 and the first matching player's
`capital_hp` is rescaled to `⌊old_capital_hp * new_tile_hp / tile_max_hp⌋`
(Python `int()` truncation, which for these non-negative values is the
floor — not `round`), remaining ≥ 0; a tile reduced to hp 0 loses its
owner. -/
theorem capital_sync_amended (tile : Tile) (damage : ℤ) (players : List Player) (o : ℕ)
    (hcap : tile.ttype = .capitalCity) (howner : tile.owner = some o)
    (hmax : 0 < tile.maxHp) :
    ((applyTileAttack tile damage players).1.hp =
        (max 0 ((tile.hp : ℤ) - damage)).toNat) ∧
      ((applyTileAttack tile damage players).2 =
        updateFirstPlayer players o (fun p =>
          { p with capitalHp :=
              (⌊(p.capitalHp : ℚ) * (((max 0 ((tile.hp : ℤ) - damage)).toNat : ℚ)) /
                  (tile.maxHp : ℚ)⌋).toNat })) ∧
      ((max 0 ((tile.hp : ℤ) - damage)).toNat = 0 →
        (applyTileAttack tile damage players).1.owner = none) := by
  have hfrac : ∀ p : Player,
      capitalRescale (max 0 ((tile.hp : ℤ) - damage)).toNat tile.maxHp p =
        { p with capitalHp :=
            (⌊(p.capitalHp : ℚ) * (((max 0 ((tile.hp : ℤ) - damage)).toNat : ℚ)) /
                (tile.maxHp : ℚ)⌋).toNat } := by
    intro p
    have hnn : (0 : ℚ) ≤ (p.capitalHp : ℚ) *
        (((max 0 ((tile.hp : ℤ) - damage)).toNat : ℚ) / (tile.maxHp : ℚ)) := by
      apply mul_nonneg (Nat.cast_nonneg _)
      apply div_nonneg (Nat.cast_nonneg _) (Nat.cast_nonneg _)
    have hfl : (0 : ℤ) ≤ ⌊(p.capitalHp : ℚ) *
        (((max 0 ((tile.hp : ℤ) - damage)).toNat : ℚ) / (tile.maxHp : ℚ))⌋ :=
      Int.floor_nonneg.mpr hnn
    simp only [capitalRescale, hmax, if_true, pyTrunc, hnn, if_pos]
    rw [max_eq_right hfl, mul_div_assoc]
  refine ⟨?_, ?_, ?_⟩
  · simp only [applyTileAttack]
    split
    · rfl
    · rfl
  · simp only [applyTileAttack, howner, hcap, if_true]
    congr 1
    funext p
    exact hfrac p
  · intro h0
    simp only [applyTileAttack, h0]
    rfl

theorem capital_sync_amended_witness :
    (capitalTile.ttype = TileType.capitalCity ∧ capitalTile.owner = some 1 ∧
        0 < capitalTile.maxHp) ∧
      (applyTileAttack capitalTile 7 [capitalOwner]).2 =
        updateFirstPlayer [capitalOwner] 1 (fun p =>
          { p with capitalHp :=
              (⌊(p.capitalHp : ℚ) * (((max 0 ((capitalTile.hp : ℤ) - 7)).toNat : ℚ)) /
                  (capitalTile.maxHp : ℚ)⌋).toNat }) :=
  ⟨⟨rfl, rfl, by decide⟩,
   (capital_sync_amended capitalTile 7 [capitalOwner] 1 rfl rfl (by decide)).2.1⟩

/-- `math.ceil(r / cs)` for natural `r` and positive natural `cs` (the float
division is exact enough that the ceiling of the true quotient is obtained). -/
def pyCeilDiv (r cs : ℕ) : ℕ :=
  (r + cs - 1) / cs

/-- The integers from `lo` to `hi` inclusive, modelling Python
`range(lo, hi + 1)`. -/
def intRange (lo hi : ℤ) : List ℤ :=
  (List.range (hi - lo + 1).toNat).map (fun i : ℕ => lo + (i : ℤ))

theorem mem_intRange {lo hi a : ℤ} : a ∈ intRange lo hi ↔ lo ≤ a ∧ a ≤ hi := by
  constructor
  · intro h
    rcases List.mem_map.mp h with ⟨i, hmem, heq⟩
    rw [List.mem_range] at hmem
    omega
  · intro h
    have hmem : (a - lo).toNat ∈ List.range (hi - lo + 1).toNat :=
      List.mem_range.mpr (by omega)
    exact List.mem_map.mpr ⟨(a - lo).toNat, hmem, by omega⟩

/-- `SpatialHash` from `combat_system.py`: `grid` is the cell-keyed
dictionary of id sets (sets as duplicate-free lists), `unit_positions` the
id-keyed position dictionary. -/
structure SpatialHash where
  cellSize : ℕ
  grid : List ((ℤ × ℤ) × List ℕ)
  unitPositions : List (ℕ × Position)
deriving DecidableEq, Repr

/-- `SpatialHash._get_cell_key`: floor division of both coordinates by the
cell size (coordinates are non-negative, so Python `//` is `Nat.div`). -/
def cellKey (cs : ℕ) (p : Position) : ℤ × ℤ :=
  ((p.x / cs : ℕ), (p.y / cs : ℕ))

/-- `SpatialHash.add_unit`. -/
def SpatialHash.addUnit (sh : SpatialHash) (uid : ℕ) (p : Position) : SpatialHash :=
  let ck := cellKey sh.cellSize p
  let ids := (alookup sh.grid ck).getD []
  let ids' := if uid ∈ ids then ids else ids ++ [uid]
  { sh with grid := aset sh.grid ck ids', unitPositions := aset sh.unitPositions uid p }

/-- `SpatialHash.remove_unit`. -/
def SpatialHash.removeUnit (sh : SpatialHash) (uid : ℕ) : SpatialHash :=
  match alookup sh.unitPositions uid with
  | none => sh
  | some p =>
    let ck := cellKey sh.cellSize p
    let grid' :=
      match alookup sh.grid ck with
      | none => sh.grid
      | some ids =>
        let ids' := ids.filter (fun i => i ≠ uid)
        if ids' = [] then adel sh.grid ck else aset sh.grid ck ids'
    { sh with grid := grid', unitPositions := adel sh.unitPositions uid }

/-- `SpatialHash.update_unit_position`: remove (when present), then re-add. -/
def SpatialHash.updateUnitPosition (sh : SpatialHash) (uid : ℕ) (p : Position) : SpatialHash :=
  let sh' := if (alookup sh.unitPositions uid).isSome then sh.removeUnit uid else sh
  sh'.addUnit uid p

/-- `SpatialHash.get_units_in_radius`: enumerate the buckets within
`ceil(radius / cell_size)` cells of the center's bucket in each axis, then
filter candidates by exact Manhattan distance against the stored position. -/
def SpatialHash.getUnitsInRadius (sh : SpatialHash) (center : Position) (radius : ℕ) :
    List ℕ :=
  let cr : ℤ := (pyCeilDiv radius sh.cellSize : ℕ)
  let cc := cellKey sh.cellSize center
  (intRange (-cr) cr).flatMap (fun dx =>
    (intRange (-cr) cr).flatMap (fun dy =>
      match alookup sh.grid (cc.1 + dx, cc.2 + dy) with
      | none => []
      | some ids =>
        ids.filter (fun uid =>
          match alookup sh.unitPositions uid with
          | some q => decide (mdist q center ≤ radius)
          | none => false)))

/-- `SpatialHash.clear` yields this state; also the initial state of
`SpatialHash.__init__` (default cell size 4). -/
def SpatialHash.empty (cs : ℕ) : SpatialHash :=
  { cellSize := cs, grid := [], unitPositions := [] }

/-- A spatial hash built by a sequence of `add_unit` calls from empty. -/
def buildHash (cs : ℕ) (adds : List (ℕ × Position)) : SpatialHash :=
  adds.foldl (fun sh e => sh.addUnit e.1 e.2) (SpatialHash.empty cs)

/-- The brute-force radius scan over all stored units that
`get_units_in_radius` must agree with. -/
def SpatialHash.bruteForceInRadius (sh : SpatialHash) (center : Position) (radius : ℕ) :
    List ℕ :=
  (sh.unitPositions.filter (fun e => mdist e.2 center ≤ radius)).map Prod.fst

theorem add_div_le_div_add_pyCeilDiv (b r cs : ℕ) (hcs : 0 < cs) :
    (b + r) / cs ≤ b / cs + pyCeilDiv r cs := by
  have hb := Nat.div_add_mod b cs
  have hbm : b % cs < cs := Nat.mod_lt _ hcs
  have hr := Nat.div_add_mod (r + cs - 1) cs
  have hrm : (r + cs - 1) % cs < cs := Nat.mod_lt _ hcs
  have hmul : (b / cs + pyCeilDiv r cs + 1) * cs =
      cs * (b / cs) + cs * ((r + cs - 1) / cs) + cs := by
    simp only [pyCeilDiv]
    ring
  have hlt : b + r < (b / cs + pyCeilDiv r cs + 1) * cs := by
    rw [hmul]
    omega
  have hdiv := (Nat.div_lt_iff_lt_mul hcs).mpr hlt
  omega

theorem cell_coord_bound (a b r cs : ℕ) (hcs : 0 < cs) (h : a ≤ b + r) :
    a / cs ≤ b / cs + pyCeilDiv r cs := by
  have h1 : a / cs ≤ (b + r) / cs := Nat.div_le_div_right h
  exact le_trans h1 (add_div_le_div_add_pyCeilDiv b r cs hcs)

/-- Bucket coverage: any stored position within Manhattan radius of the
center lies in a bucket enumerated by the query's
`ceil(radius / cell_size)`-wide cell window. -/
theorem cellKey_mem_window {cs : ℕ} (hcs : 0 < cs) (p c : Position) (radius : ℕ)
    (h : mdist p c ≤ radius) :
    ∃ dx ∈ intRange (-(pyCeilDiv radius cs : ℤ)) (pyCeilDiv radius cs),
      ∃ dy ∈ intRange (-(pyCeilDiv radius cs : ℤ)) (pyCeilDiv radius cs),
        ((cellKey cs c).1 + dx, (cellKey cs c).2 + dy) = cellKey cs p := by
  have hx1 : p.x ≤ c.x + radius := by
    simp only [mdist] at h
    omega
  have hx2 : c.x ≤ p.x + radius := by
    simp only [mdist] at h
    omega
  have hy1 : p.y ≤ c.y + radius := by
    simp only [mdist] at h
    omega
  have hy2 : c.y ≤ p.y + radius := by
    simp only [mdist] at h
    omega
  have hbx1 : p.x / cs ≤ c.x / cs + pyCeilDiv radius cs := cell_coord_bound _ _ _ _ hcs hx1
  have hbx2 : c.x / cs ≤ p.x / cs + pyCeilDiv radius cs := cell_coord_bound _ _ _ _ hcs hx2
  have hby1 : p.y / cs ≤ c.y / cs + pyCeilDiv radius cs := cell_coord_bound _ _ _ _ hcs hy1
  have hby2 : c.y / cs ≤ p.y / cs + pyCeilDiv radius cs := cell_coord_bound _ _ _ _ hcs hy2
  refine ⟨(p.x / cs : ℤ) - (c.x / cs : ℤ), ?_, (p.y / cs : ℤ) - (c.y / cs : ℤ), ?_, ?_⟩
  · rw [mem_intRange]
    omega
  · rw [mem_intRange]
    omega
  · simp only [cellKey, Prod.mk.injEq]
    omega

/-- Representation invariant of the spatial hash: every stored unit is
present in the bucket of its stored position. -/
def hashInv (sh : SpatialHash) : Prop :=
  ∀ uid p, alookup sh.unitPositions uid = some p →
    ∃ ids, alookup sh.grid (cellKey sh.cellSize p) = some ids ∧ uid ∈ ids

theorem hashInv_empty (cs : ℕ) : hashInv (SpatialHash.empty cs) := by
  intro uid p hp
  simp [SpatialHash.empty, alookup] at hp

theorem hashInv_addUnit {sh : SpatialHash} (hinv : hashInv sh) (uid : ℕ) (p : Position) :
    hashInv (sh.addUnit uid p) := by
  intro uid' p' hp'
  simp only [SpatialHash.addUnit] at hp' ⊢
  by_cases huid : uid = uid'
  · subst huid
    rw [alookup_aset] at hp'
    injection hp' with hpp
    subst hpp
    refine ⟨_, alookup_aset _ _ _, ?_⟩
    by_cases hmem : uid ∈ (alookup sh.grid (cellKey sh.cellSize p)).getD []
    · simp [hmem]
    · simp [hmem]
  · rw [alookup_aset_ne _ _ _ _ huid] at hp'
    obtain ⟨ids0, hids0, hmem0⟩ := hinv uid' p' hp'
    by_cases hck : cellKey sh.cellSize p = cellKey sh.cellSize p'
    · rw [← hck] at hids0
      rw [hck]
      refine ⟨_, alookup_aset _ _ _, ?_⟩
      rw [← hck, hids0]
      by_cases hmem : uid ∈ (Option.getD (some ids0) [])
      · simp only [hmem, if_true]
        simpa using hmem0
      · simp only [hmem, if_false]
        simp only [Option.getD_some]
        exact List.mem_append.mpr (Or.inl hmem0)
    · rw [alookup_aset_ne _ _ _ _ hck]
      exact ⟨ids0, hids0, hmem0⟩

theorem hashInv_foldl_addUnit (adds : List (ℕ × Position)) :
    ∀ sh : SpatialHash, hashInv sh →
      hashInv (adds.foldl (fun sh e => sh.addUnit e.1 e.2) sh) := by
  induction adds with
  | nil => intro sh h; exact h
  | cons e t ih =>
    intro sh h
    exact ih _ (hashInv_addUnit h e.1 e.2)

theorem hashInv_buildHash (cs : ℕ) (adds : List (ℕ × Position)) :
    hashInv (buildHash cs adds) :=
  hashInv_foldl_addUnit adds _ (hashInv_empty cs)

theorem cellSize_addUnit (sh : SpatialHash) (uid : ℕ) (p : Position) :
    (sh.addUnit uid p).cellSize = sh.cellSize := rfl

theorem cellSize_buildHash (cs : ℕ) (adds : List (ℕ × Position)) :
    (buildHash cs adds).cellSize = cs := by
  have hgen : ∀ sh : SpatialHash,
      (adds.foldl (fun sh e => sh.addUnit e.1 e.2) sh).cellSize = sh.cellSize := by
    induction adds with
    | nil => intro sh; rfl
    | cons e t ih => intro sh; exact ih _
  exact hgen _

theorem keys_nodup_aset {κ ν : Type} [DecidableEq κ] (l : List (κ × ν)) (k : κ) (v : ν)
    (h : (l.map Prod.fst).Nodup) : ((aset l k v).map Prod.fst).Nodup := by
  induction l with
  | nil => simp [aset]
  | cons e t ih =>
    rcases e with ⟨k₀, v₀⟩
    simp only [List.map_cons, List.nodup_cons] at h
    by_cases h₀ : k₀ = k
    · subst h₀
      simpa [aset] using h
    · have ht := ih h.2
      have hknot : k₀ ∉ (aset t k v).map Prod.fst := by
        intro hmem
        have : ∀ (l' : List (κ × ν)) (a : κ),
            a ∈ (aset l' k v).map Prod.fst → a = k ∨ a ∈ l'.map Prod.fst := by
          intro l' a
          induction l' with
          | nil => simp [aset]
          | cons e' t' ih' =>
            rcases e' with ⟨k₁, v₁⟩
            by_cases h₁ : k₁ = k
            · intro hm
              rw [show aset ((k₁, v₁) :: t') k v = (k, v) :: t' from by simp [aset, h₁]] at hm
              simp only [List.map_cons, List.mem_cons] at hm
              rcases hm with hm | hm
              · left; exact hm
              · right
                simp only [List.map_cons, List.mem_cons]
                right
                exact hm
            · simp only [aset, h₁, if_false, List.map_cons, List.mem_cons]
              intro hm
              rcases hm with hm | hm
              · right; simp [hm]
              · rcases ih' hm with hm' | hm'
                · left; exact hm'
                · right; simp [hm']
        rcases this t k₀ hmem with h' | h'
        · exact h₀ h'
        · exact h.1 h'
      simp only [aset, h₀, if_false, List.map_cons, List.nodup_cons]
      exact ⟨hknot, ht⟩

theorem keys_nodup_unitPositions_addUnit (sh : SpatialHash) (uid : ℕ) (p : Position)
    (h : (sh.unitPositions.map Prod.fst).Nodup) :
    ((sh.addUnit uid p).unitPositions.map Prod.fst).Nodup := by
  simpa [SpatialHash.addUnit] using keys_nodup_aset sh.unitPositions uid p h

theorem keys_nodup_buildHash (cs : ℕ) (adds : List (ℕ × Position)) :
    ((buildHash cs adds).unitPositions.map Prod.fst).Nodup := by
  have hgen : ∀ sh : SpatialHash, (sh.unitPositions.map Prod.fst).Nodup →
      ((adds.foldl (fun sh e => sh.addUnit e.1 e.2) sh).unitPositions.map Prod.fst).Nodup := by
    induction adds with
    | nil => intro sh h; exact h
    | cons e t ih =>
      intro sh h
      exact ih _ (keys_nodup_unitPositions_addUnit sh e.1 e.2 h)
  exact hgen _ (by simp [SpatialHash.empty])

theorem mem_map_fst_filter {κ ν : Type} [DecidableEq κ] (l : List (κ × ν))
    (hnd : (l.map Prod.fst).Nodup) (P : κ × ν → Bool) (k : κ) :
    k ∈ (l.filter P).map Prod.fst ↔ ∃ v, alookup l k = some v ∧ P (k, v) = true := by
  induction l with
  | nil => simp [alookup]
  | cons e t ih =>
    rcases e with ⟨k₀, v₀⟩
    simp only [List.map_cons, List.nodup_cons] at hnd
    by_cases hk : k₀ = k
    · subst hk
      simp only [alookup, if_true]
      constructor
      · intro hmem
        by_cases hp : P (k₀, v₀)
        · exact ⟨v₀, rfl, hp⟩
        · rw [List.filter_cons_of_neg (by simpa using hp)] at hmem
          exfalso
          apply hnd.1
          have : k₀ ∈ (t.filter P).map Prod.fst := hmem
          have hsub : (t.filter P).map Prod.fst ⊆ t.map Prod.fst := by
            intro a ha
            rcases List.mem_map.mp ha with ⟨e', he', rfl⟩
            exact List.mem_map.mpr ⟨e', List.mem_of_mem_filter he', rfl⟩
          exact hsub this
      · intro ⟨v, hv, hP⟩
        injection hv with hv
        subst hv
        rw [List.filter_cons_of_pos hP]
        simp
    · simp only [alookup, hk, if_false]
      by_cases hp : P (k₀, v₀)
      · rw [List.filter_cons_of_pos hp]
        simp only [List.map_cons, List.mem_cons]
        rw [ih hnd.2]
        constructor
        · intro h
          rcases h with h | h
          · exact absurd h.symm hk
          · exact h
        · intro h
          right
          exact h
      · rw [List.filter_cons_of_neg (by simpa using hp)]
        exact ih hnd.2

theorem mem_getUnitsInRadius (sh : SpatialHash) (hcs : 0 < sh.cellSize)
    (hinv : hashInv sh) (center : Position) (radius : ℕ) (uid : ℕ) :
    uid ∈ sh.getUnitsInRadius center radius ↔
      ∃ p, alookup sh.unitPositions uid = some p ∧ mdist p center ≤ radius := by
  constructor
  · intro h
    simp only [SpatialHash.getUnitsInRadius, List.mem_flatMap] at h
    rcases h with ⟨dx, hdx, dy, hdy, hmem⟩
    rcases hg : alookup sh.grid
        ((cellKey sh.cellSize center).1 + dx, (cellKey sh.cellSize center).2 + dy)
        with _ | ids
    · rw [hg] at hmem
      simp at hmem
    · rw [hg] at hmem
      have hmem' := List.mem_filter.mp hmem
      have hcond := hmem'.2
      rcases hq : alookup sh.unitPositions uid with _ | q
      · rw [hq] at hcond
        simp at hcond
      · rw [hq] at hcond
        simp only [decide_eq_true_eq] at hcond
        exact ⟨q, rfl, hcond⟩
  · intro h
    rcases h with ⟨p, hp, hd⟩
    obtain ⟨ids, hids, hmemids⟩ := hinv uid p hp
    have hd' : mdist p center ≤ radius := hd
    obtain ⟨dx, hdx, dy, hdy, hcell⟩ :=
      cellKey_mem_window hcs p center radius hd'
    simp only [SpatialHash.getUnitsInRadius, List.mem_flatMap]
    refine ⟨dx, hdx, dy, hdy, ?_⟩
    rw [hcell, hids]
    refine List.mem_filter.mpr ⟨hmemids, ?_⟩
    rw [hp]
    simpa using hd

/-- Claim C2: for every set of units added to the spatial hash and every
center and radius, `get_units_in_radius` returns exactly the unit ids whose
stored position has Manhattan distance at most the radius from the center
(equivalently, the brute-force scan over all stored units), despite only
enumerating buckets within `ceil(radius / cell_size)` cells of the center's
bucket in each axis. -/
theorem spatialHash_radius_query_spec (cs : ℕ) (adds : List (ℕ × Position))
    (center : Position) (radius : ℕ) (hcs : 0 < cs) :
    ∀ uid,
      (uid ∈ (buildHash cs adds).getUnitsInRadius center radius ↔
        ∃ p, alookup (buildHash cs adds).unitPositions uid = some p ∧
          mdist p center ≤ radius) ∧
      (uid ∈ (buildHash cs adds).getUnitsInRadius center radius ↔
        uid ∈ (buildHash cs adds).bruteForceInRadius center radius) := by
  intro uid
  have hcs' : 0 < (buildHash cs adds).cellSize := by
    rw [cellSize_buildHash]
    exact hcs
  have hmain := mem_getUnitsInRadius (buildHash cs adds) hcs'
    (hashInv_buildHash cs adds) center radius uid
  refine ⟨hmain, hmain.trans ?_⟩
  rw [SpatialHash.bruteForceInRadius,
    mem_map_fst_filter _ (keys_nodup_buildHash cs adds)]
  constructor
  · intro ⟨p, hp, hd⟩
    exact ⟨p, hp, by simpa using hd⟩
  · intro ⟨p, hp, hd⟩
    exact ⟨p, hp, by simpa using hd⟩

theorem spatialHash_radius_query_spec_witness :
    0 < 4 ∧
      ((2 : ℕ) ∈ (buildHash 4 [(1, ⟨10, 10⟩), (2, ⟨11, 11⟩), (3, ⟨15, 15⟩)]).getUnitsInRadius
          ⟨10, 10⟩ 2 ↔
        (2 : ℕ) ∈ (buildHash 4 [(1, ⟨10, 10⟩), (2, ⟨11, 11⟩), (3, ⟨15, 15⟩)]).bruteForceInRadius
          ⟨10, 10⟩ 2) :=
  ⟨by decide,
   (spatialHash_radius_query_spec 4 [(1, ⟨10, 10⟩), (2, ⟨11, 11⟩), (3, ⟨15, 15⟩)]
      ⟨10, 10⟩ 2 (by decide) 2).2⟩

/-- `MovementSystem` from `pathfinding.py`: the three parallel per-unit
dictionaries (path, current path index, interpolation progress). -/
structure MovementSystem where
  unitPaths : List (ℕ × List Position)
  unitPathProgress : List (ℕ × ℕ)
  unitInterpolation : List (ℕ × ℚ)
deriving DecidableEq, Repr

/-- `MovementSystem.__init__`. -/
def MovementSystem.empty : MovementSystem := ⟨[], [], []⟩

/-- `MovementSystem.clear_unit_path`. -/
def MovementSystem.clearUnitPath (ms : MovementSystem) (uid : ℕ) : MovementSystem :=
  ⟨adel ms.unitPaths uid, adel ms.unitPathProgress uid, adel ms.unitInterpolation uid⟩

/-- `MovementSystem.set_unit_path`: rejects paths shorter than 2 waypoints. -/
def MovementSystem.setUnitPath (ms : MovementSystem) (uid : ℕ) (path : List Position) :
    MovementSystem :=
  if path.length < 2 then ms.clearUnitPath uid
  else
    { unitPaths := aset ms.unitPaths uid path,
      unitPathProgress := aset ms.unitPathProgress uid 0,
      unitInterpolation := aset ms.unitInterpolation uid 0 }

/-- `MovementSystem.has_path`. -/
def MovementSystem.hasPath (ms : MovementSystem) (uid : ℕ) : Bool :=
  (alookup ms.unitPaths uid).isSome

/-- The `while interpolation >= 1.0 and current_index < len(path) - 1` loop
of `update_unit_movement`; the fuel argument is the number of remaining
segments `len(path) - 1 - current_index`, which bounds the iterations
exactly as the second conjunct of the loop condition does. -/
def advanceLoop : ℕ → ℚ → ℕ → ℚ × ℕ
  | 0, interp, idx => (interp, idx)
  | fuel + 1, interp, idx =>
    if 1 ≤ interp then advanceLoop fuel (interp - 1) (idx + 1) else (interp, idx)

/-- `MovementSystem.update_unit_movement`: advances the unit along its path
by `speed * delta_time` segments, carrying remainder across segment
boundaries, clearing the path and returning the final waypoint on arrival,
and otherwise returning the linear interpolation (coordinates truncated to
integers) between the current and next waypoint. -/
def MovementSystem.updateUnitMovement (ms : MovementSystem) (uid : ℕ) (speed dt : ℚ) :
    MovementSystem × Option Position :=
  match alookup ms.unitPaths uid with
  | none => (ms, none)
  | some path =>
    let idx := (alookup ms.unitPathProgress uid).getD 0
    let interp := (alookup ms.unitInterpolation uid).getD 0
    if path.length - 1 ≤ idx then
      (ms.clearUnitPath uid, path.getLast?)
    else
      let adv := advanceLoop ((path.length - 1) - idx) (interp + speed * dt) idx
      let interp' := adv.1
      let idx' := adv.2
      let ms' := { ms with
        unitPathProgress := aset ms.unitPathProgress uid idx',
        unitInterpolation := aset ms.unitInterpolation uid interp' }
      if path.length - 1 ≤ idx' then
        (ms'.clearUnitPath uid, path.getLast?)
      else
        match path.get? idx', path.get? (idx' + 1) with
        | some sp, some ep =>
          let nx := (sp.x : ℚ) + ((ep.x : ℚ) - (sp.x : ℚ)) * interp'
          let ny := (sp.y : ℚ) + ((ep.y : ℚ) - (sp.y : ℚ)) * interp'
          (ms', some ⟨(pyTrunc nx).toNat, (pyTrunc ny).toNat⟩)
        | _, _ => (ms', none)

/-- `MovementSystem.get_unit_progress`. -/
def MovementSystem.getUnitProgress (ms : MovementSystem) (uid : ℕ) : ℚ :=
  match alookup ms.unitPaths uid with
  | none => 1
  | some path =>
    let idx := (alookup ms.unitPathProgress uid).getD 0
    let interp := (alookup ms.unitInterpolation uid).getD 0
    let totalSegments := path.length - 1
    if totalSegments = 0 then 1
    else min 1 (((idx : ℚ) + interp) / (totalSegments : ℚ))

/-- `CombatSystem` state from `combat_system.py`: the spatial hash, the
per-unit last-attack timestamps and the attack cooldown (1.0s). -/
structure CombatSystem where
  spatialHash : SpatialHash
  unitLastAttack : List (ℕ × ℚ)
  attackCooldown : ℚ
deriving DecidableEq, Repr

/-- `CombatSystem.__init__` (spatial hash with default cell size 4). -/
def CombatSystem.empty : CombatSystem := ⟨SpatialHash.empty 4, [], 1⟩

/-- `UnitSystem` from `models/unit.py`, restricted to the state the
verified operations touch (the training queue is not involved). -/
structure UnitSystem where
  units : List (ℕ × GameUnit)
  movementSystem : MovementSystem
  combatSystem : CombatSystem
  gridWidth : ℕ
  gridHeight : ℕ
  terrainWeights : List (Position × ℚ)
deriving DecidableEq, Repr

/-- The movement/arrival events emitted by `UnitSystem.update_unit_movement`
(the wall-clock timestamps of the source events are omitted). -/
inductive MoveEvent where
  | movement (unitId : ℕ) (oldPosition newPosition : Position)
  | arrival (unitId : ℕ) (position : Position)
deriving DecidableEq, Repr

/-- The per-unit body of `UnitSystem.update_unit_movement`: only Moving
units are advanced; a returned position updates the unit and the spatial
hash and emits a movement event; a completed path sets the unit Idle,
clears its target and emits an arrival event. -/
def moveStep (dt : ℚ) (acc : UnitSystem × List MoveEvent) (uid : ℕ) :
    UnitSystem × List MoveEvent :=
  let us := acc.1
  match alookup us.units uid with
  | none => acc
  | some u =>
    if u.status = .moving then
      let r := us.movementSystem.updateUnitMovement uid u.speed dt
      let us₁ := { us with movementSystem := r.1 }
      match r.2 with
      | some newPos =>
        let oldPos := u.position
        let u' := { u with position := newPos }
        let us₂ := { us₁ with
          units := aset us₁.units uid u',
          combatSystem := { us₁.combatSystem with
            spatialHash := us₁.combatSystem.spatialHash.updateUnitPosition uid newPos } }
        let evs₁ := acc.2 ++ [MoveEvent.movement uid oldPos newPos]
        if us₂.movementSystem.hasPath uid = false then
          ({ us₂ with units := aset us₂.units uid { u' with status := .idle, target := none } },
           evs₁ ++ [MoveEvent.arrival uid newPos])
        else (us₂, evs₁)
      | none => (us₁, acc.2)
    else acc

/-- `UnitSystem.update_unit_movement`: iterate over all units in insertion
order. -/
def UnitSystem.updateUnitMovementAll (us : UnitSystem) (dt : ℚ) :
    UnitSystem × List MoveEvent :=
  (us.units.map Prod.fst).foldl (moveStep dt) (us, [])

/-- A sequence of movement update ticks, accumulating events. -/
def applyMovementUpdates (us : UnitSystem) (deltas : List ℚ) :
    UnitSystem × List MoveEvent :=
  deltas.foldl (fun acc d =>
    let r := acc.1.updateUnitMovementAll d
    (r.1, acc.2 ++ r.2)) (us, [])

/-- The single test unit of the movement scenario: speed 1.0 tiles/s. -/
def c8Unit (pos : Position) (st : UnitStatus) : GameUnit :=
  { id := 1, utype := .infantry, owner := 1, position := pos, hp := 100, maxHp := 100,
    attack := 20, defense := 15, speed := 1, range := 1, status := st, target := none,
    lastAction := none, metadata := none }

/-- A unit system holding one Moving unit with the 3-waypoint path
`[p0, p1, p2]` installed. -/
def c8Init (p0 p1 p2 : Position) : UnitSystem :=
  { units := [(1, c8Unit p0 .moving)],
    movementSystem := MovementSystem.empty.setUnitPath 1 [p0, p1, p2],
    combatSystem := { CombatSystem.empty with
      spatialHash := (SpatialHash.empty 4).addUnit 1 p0 },
    gridWidth := 40, gridHeight := 40, terrainWeights := [] }

/-- Movement invariant while en route (cumulative time `s < 2` segments):
the stored index is `⌊s⌋`, the stored interpolation the fractional rest. -/
def c8InvA (p0 p1 p2 : Position) (s : ℚ) (us : UnitSystem) : Prop :=
  (∃ pos, us.units = [(1, c8Unit pos .moving)]) ∧
  us.movementSystem.unitPaths = [(1, [p0, p1, p2])] ∧
  us.movementSystem.unitPathProgress = [(1, if s < 1 then 0 else 1)] ∧
  us.movementSystem.unitInterpolation = [(1, s - (if s < 1 then (0 : ℚ) else 1))]

/-- Movement invariant after arrival: path cleared, unit Idle. -/
def c8InvB (us : UnitSystem) : Prop :=
  (∃ pos, us.units = [(1, c8Unit pos .idle)]) ∧
  us.movementSystem = MovementSystem.empty

/-- Combined phase invariant for the movement scenario. -/
def c8Inv (p0 p1 p2 : Position) (s : ℚ) (st : UnitSystem × List MoveEvent) : Prop :=
  if s < 2 then c8InvA p0 p1 p2 s st.1
  else c8InvB st.1 ∧ st.2.getLast? = some (MoveEvent.arrival 1 p2)

theorem advanceLoop_of_lt_one (fuel : ℕ) (v : ℚ) (idx : ℕ) (h : v < 1) :
    advanceLoop fuel v idx = (v, idx) := by
  cases fuel with
  | zero => rfl
  | succ n =>
    simp only [advanceLoop]
    rw [if_neg (by linarith)]

theorem advanceLoop_one_ge (v : ℚ) (idx : ℕ) (h : 1 ≤ v) :
    advanceLoop 1 v idx = (v - 1, idx + 1) := by
  show advanceLoop (0 + 1) v idx = _
  simp only [advanceLoop]
  rw [if_pos h]

theorem advanceLoop_two_mid (v : ℚ) (idx : ℕ) (h1 : 1 ≤ v) (h2 : v - 1 < 1) :
    advanceLoop 2 v idx = (v - 1, idx + 1) := by
  show advanceLoop (1 + 1) v idx = _
  simp only [advanceLoop]
  rw [if_pos h1]
  exact advanceLoop_of_lt_one 1 _ _ h2

theorem advanceLoop_two_cross (v : ℚ) (idx : ℕ) (h1 : 1 ≤ v) (h2 : 1 ≤ v - 1) :
    advanceLoop 2 v idx = (v - 1 - 1, idx + 1 + 1) := by
  show advanceLoop (1 + 1) v idx = _
  simp only [advanceLoop]
  rw [if_pos h1]
  exact advanceLoop_one_ge _ _ h2

theorem c8_msUpdate_en_route (s d : ℚ) (hs : 0 ≤ s) (hd : 0 ≤ d) (hsl : s < 2)
    (hsd : s + d < 2) (p0 p1 p2 : Position) :
    ((MovementSystem.updateUnitMovement
        ⟨[(1, [p0, p1, p2])], [(1, if s < 1 then 0 else 1)],
         [(1, s - (if s < 1 then (0 : ℚ) else 1))]⟩ 1 1 d).1 =
      ⟨[(1, [p0, p1, p2])], [(1, if s + d < 1 then 0 else 1)],
       [(1, (s + d) - (if s + d < 1 then (0 : ℚ) else 1))]⟩) ∧
    ((MovementSystem.updateUnitMovement
        ⟨[(1, [p0, p1, p2])], [(1, if s < 1 then 0 else 1)],
         [(1, s - (if s < 1 then (0 : ℚ) else 1))]⟩ 1 1 d).2).isSome = true := by
  by_cases h1 : s < 1
  · by_cases h2 : s + d < 1
    · simp only [MovementSystem.updateUnitMovement]
      simp [alookup, h1, h2]
      rw [advanceLoop_of_lt_one _ _ _ (by linarith)]
      simp [aset]
    · simp only [MovementSystem.updateUnitMovement]
      simp [alookup, h1, h2]
      rw [advanceLoop_two_mid _ _ (by linarith) (by linarith)]
      simp [aset]
  · have h2 : ¬ s + d < 1 := by intro h; exact h1 (by linarith)
    simp only [MovementSystem.updateUnitMovement]
    simp [alookup, h1, h2]
    rw [advanceLoop_of_lt_one _ _ _ (by linarith)]
    simp [aset]
    ring

theorem c8_msUpdate_arrival (s d : ℚ) (hs : 0 ≤ s) (hd : 0 ≤ d) (hsl : s < 2)
    (hsd : ¬ s + d < 2) (p0 p1 p2 : Position) :
    MovementSystem.updateUnitMovement
        ⟨[(1, [p0, p1, p2])], [(1, if s < 1 then 0 else 1)],
         [(1, s - (if s < 1 then (0 : ℚ) else 1))]⟩ 1 1 d =
      (MovementSystem.empty, some p2) := by
  by_cases h1 : s < 1
  · simp only [MovementSystem.updateUnitMovement]
    simp [alookup, h1]
    rw [advanceLoop_two_cross _ _ (by linarith) (by linarith)]
    simp [MovementSystem.clearUnitPath, MovementSystem.empty, aset, adel]
  · simp only [MovementSystem.updateUnitMovement]
    simp [alookup, h1]
    rw [advanceLoop_one_ge _ _ (by linarith)]
    simp [MovementSystem.clearUnitPath, MovementSystem.empty, aset, adel]

theorem c8_step (p0 p1 p2 : Position) (s d : ℚ) (hs : 0 ≤ s) (hd : 0 ≤ d)
    (st : UnitSystem × List MoveEvent) (h : c8Inv p0 p1 p2 s st) :
    c8Inv p0 p1 p2 (s + d)
      ((st.1.updateUnitMovementAll d).1, st.2 ++ (st.1.updateUnitMovementAll d).2) := by
  rcases st with ⟨us, evs⟩
  by_cases hlt : s < 2
  · have hA : c8InvA p0 p1 p2 s us := by
      simpa [c8Inv, hlt] using h
    obtain ⟨⟨pos, hunits⟩, hpaths, hprog, hinterp⟩ := hA
    have hms : us.movementSystem =
        ⟨[(1, [p0, p1, p2])], [(1, if s < 1 then 0 else 1)],
         [(1, s - (if s < 1 then (0 : ℚ) else 1))]⟩ := by
      rcases hmm : us.movementSystem with ⟨a, b, c⟩
      rw [hmm] at hpaths hprog hinterp
      simp only at hpaths hprog hinterp
      rw [hpaths, hprog, hinterp]
    have hmap : us.units.map Prod.fst = [1] := by rw [hunits]; rfl
    have hlu : alookup us.units 1 = some (c8Unit pos .moving) := by
      rw [hunits]; rfl
    by_cases hx : s + d < 2
    · -- still en route
      obtain ⟨hres1, hres2⟩ := c8_msUpdate_en_route s d hs hd hlt hx p0 p1 p2
      rcases hq : (MovementSystem.updateUnitMovement
          ⟨[(1, [p0, p1, p2])], [(1, if s < 1 then 0 else 1)],
           [(1, s - (if s < 1 then (0 : ℚ) else 1))]⟩ 1 1 d).2 with _ | q
      · rw [hq] at hres2; simp at hres2
      · simp only [UnitSystem.updateUnitMovementAll, hmap, List.foldl_cons, List.foldl_nil,
          moveStep, hlu]
        simp only [c8Unit, if_pos rfl]
        rw [hms]
        simp only [hres1, hq]
        have hhas : MovementSystem.hasPath
            ⟨[(1, [p0, p1, p2])], [(1, if s + d < 1 then 0 else 1)],
             [(1, (s + d) - (if s + d < 1 then (0 : ℚ) else 1))]⟩ 1 = true := by
          simp [MovementSystem.hasPath, alookup]
        simp only [hhas, if_true, if_false, Bool.false_eq_true]
        simp only [c8Inv, hx, if_true]
        refine ⟨⟨q, ?_⟩, rfl, rfl, rfl⟩
        rw [hunits]
        simp [aset, c8Unit]
    · -- arrival during this update
      have hres := c8_msUpdate_arrival s d hs hd hlt hx p0 p1 p2
      simp only [UnitSystem.updateUnitMovementAll, hmap, List.foldl_cons, List.foldl_nil,
        moveStep, hlu]
      simp only [c8Unit, if_pos rfl]
      rw [hms]
      simp only [hres]
      have hhas : MovementSystem.hasPath MovementSystem.empty 1 = false := by
        simp [MovementSystem.hasPath, MovementSystem.empty, alookup]
      simp only [hhas, if_true]
      have hge : ¬ s + d < 2 := hx
      simp only [c8Inv, hge, if_false]
      constructor
      · refine ⟨⟨p2, ?_⟩, rfl⟩
        rw [hunits]
        simp [aset, c8Unit]
      · rw [show evs ++ ([] ++ [MoveEvent.movement 1 pos p2] ++ [MoveEvent.arrival 1 p2]) =
            (evs ++ [MoveEvent.movement 1 pos p2]) ++ [MoveEvent.arrival 1 p2] from by
          simp]
        exact List.getLast?_concat _
  · -- already arrived: the Idle unit is skipped and nothing changes
    have hB : c8InvB us ∧ evs.getLast? = some (MoveEvent.arrival 1 p2) := by
      simpa [c8Inv, hlt] using h
    obtain ⟨⟨⟨pos, hunits⟩, hmsB⟩, hlast⟩ := hB
    have hmap : us.units.map Prod.fst = [1] := by rw [hunits]; rfl
    have hlu : alookup us.units 1 = some (c8Unit pos .idle) := by
      rw [hunits]; rfl
    have hstep : us.updateUnitMovementAll d = (us, []) := by
      simp only [UnitSystem.updateUnitMovementAll, hmap, List.foldl_cons, List.foldl_nil,
        moveStep, hlu]
      simp [c8Unit]
    rw [hstep]
    have hge : ¬ s + d < 2 := by intro hcon; exact hlt (by linarith)
    simp only [c8Inv, hge, if_false, List.append_nil]
    exact ⟨⟨⟨pos, hunits⟩, hmsB⟩, hlast⟩

theorem c8_fold (p0 p1 p2 : Position) :
    ∀ (deltas : List ℚ) (s : ℚ) (st : UnitSystem × List MoveEvent),
      (∀ d ∈ deltas, 0 ≤ d) → 0 ≤ s → c8Inv p0 p1 p2 s st →
      c8Inv p0 p1 p2 (s + deltas.sum)
        (deltas.foldl (fun acc d =>
          ((acc.1.updateUnitMovementAll d).1, acc.2 ++ (acc.1.updateUnitMovementAll d).2)) st) := by
  intro deltas
  induction deltas with
  | nil =>
    intro s st _ _ h
    simpa using h
  | cons d t ih =>
    intro s st hpos hs h
    have hd : 0 ≤ d := hpos d (List.mem_cons_self d t)
    have hstep := c8_step p0 p1 p2 s d hs hd st h
    have ht := ih (s + d) _ (fun x hx => hpos x (List.mem_cons_of_mem d hx)) (by linarith) hstep
    simpa [add_assoc] using ht

/-- Claim C8: a unit with speed 1.0 tiles/s following a 3-waypoint path
(2 segments), after movement updates whose non-negative delta-time values
sum to 2.5 seconds, has arrived: its path is cleared (`has_path` false),
`get_unit_progress` reports 1.0, its status is Idle, and the last update
that reported anything returned the final waypoint (the event stream ends
with the arrival event at the final waypoint); en route, accumulated
progress of `speed * delta_time` crossing 1.0 advances a segment carrying
over the remainder, possibly crossing several segments in one update (the
`advanceLoop` characterization used by the proof). -/
theorem movement_arrival_after_sum (p0 p1 p2 : Position) (deltas : List ℚ)
    (hpos : ∀ d ∈ deltas, 0 ≤ d) (hsum : deltas.sum = 5 / 2) :
    ((applyMovementUpdates (c8Init p0 p1 p2) deltas).1.movementSystem.hasPath 1 = false) ∧
      ((applyMovementUpdates (c8Init p0 p1 p2) deltas).1.movementSystem.getUnitProgress 1 = 1) ∧
      ((alookup (applyMovementUpdates (c8Init p0 p1 p2) deltas).1.units 1).map
          GameUnit.status = some UnitStatus.idle) ∧
      ((applyMovementUpdates (c8Init p0 p1 p2) deltas).2.getLast? =
        some (MoveEvent.arrival 1 p2)) := by
  have hinit : c8Inv p0 p1 p2 0 (c8Init p0 p1 p2, []) := by
    simp only [c8Inv, show (0 : ℚ) < 2 from by norm_num, if_true]
    refine ⟨⟨p0, rfl⟩, ?_, ?_, ?_⟩
    · rfl
    · simp [c8Init, MovementSystem.setUnitPath, MovementSystem.empty, aset]
    · simp [c8Init, MovementSystem.setUnitPath, MovementSystem.empty, aset]
  have hfold := c8_fold p0 p1 p2 deltas 0 (c8Init p0 p1 p2, []) hpos le_rfl hinit
  rw [hsum] at hfold
  have hge : ¬ (0 : ℚ) + 5 / 2 < 2 := by norm_num
  simp only [c8Inv, hge, if_false] at hfold
  have happ : applyMovementUpdates (c8Init p0 p1 p2) deltas =
      deltas.foldl (fun acc d =>
        ((acc.1.updateUnitMovementAll d).1, acc.2 ++ (acc.1.updateUnitMovementAll d).2))
        (c8Init p0 p1 p2, []) := rfl
  rw [happ]
  obtain ⟨⟨⟨pos, hunits⟩, hmsB⟩, hlast⟩ := hfold
  refine ⟨?_, ?_, ?_, hlast⟩
  · rw [hmsB]
    rfl
  · rw [hmsB]
    rfl
  · rw [hunits]
    rfl

theorem movement_arrival_after_sum_witness :
    ((∀ d ∈ [(1 : ℚ), 1, 1 / 2], 0 ≤ d) ∧ [(1 : ℚ), 1, 1 / 2].sum = 5 / 2) ∧
      ((applyMovementUpdates (c8Init ⟨0, 0⟩ ⟨1, 0⟩ ⟨2, 0⟩) [(1 : ℚ), 1, 1 / 2]).2.getLast? =
        some (MoveEvent.arrival 1 ⟨2, 0⟩)) :=
  ⟨⟨by norm_num, by norm_num⟩,
   (movement_arrival_after_sum ⟨0, 0⟩ ⟨1, 0⟩ ⟨2, 0⟩ [(1 : ℚ), 1, 1 / 2]
      (by norm_num) (by norm_num)).2.2.2⟩

/-- Event kinds of `CombatEvent.type` (the source strings `"attack"`,
`"death"`, `"damage"`). -/
inductive CombatEventKind where
  | attack
  | death
  | damageKind
deriving DecidableEq, Repr

/-- `CombatEvent` from `combat_system.py`. -/
structure CombatEvent where
  kind : CombatEventKind
  attackerId : ℕ
  targetId : ℕ
  damage : ℤ
  timestamp : ℚ
  position : Position
  targetDied : Bool
deriving DecidableEq, Repr

/-- `CombatSystem.can_attack`: the cooldown (1.0s) has elapsed since the
unit's recorded last attack (default 0). -/
def CombatSystem.canAttack (cs : CombatSystem) (uid : ℕ) (now : ℚ) : Bool :=
  let last := (alookup cs.unitLastAttack uid).getD 0
  cs.attackCooldown ≤ now - last

/-- `CombatSystem.add_unit`. -/
def CombatSystem.addUnit (cs : CombatSystem) (u : GameUnit) : CombatSystem :=
  { cs with spatialHash := cs.spatialHash.addUnit u.id u.position }

/-- `CombatSystem.remove_unit`: drop the unit from the spatial hash and the
cooldown map. -/
def CombatSystem.removeUnit (cs : CombatSystem) (uid : ℕ) : CombatSystem :=
  { cs with spatialHash := cs.spatialHash.removeUnit uid,
            unitLastAttack := adel cs.unitLastAttack uid }

/-- `CombatSystem.update_spatial_hash`: clear and re-add every non-Dead
unit at its current position. -/
def CombatSystem.updateSpatialHash (cs : CombatSystem) (allUnits : List (ℕ × GameUnit)) :
    CombatSystem :=
  { cs with spatialHash :=
      (allUnits.foldl
        (fun sh e => if e.2.status ≠ .dead then sh.addUnit e.2.id e.2.position else sh)
        (SpatialHash.empty cs.spatialHash.cellSize)) }

/-- `CombatSystem.find_targets_in_range`: spatial-hash candidates filtered
to enemy units that are neither Dead nor Training, in candidate order. -/
def CombatSystem.findTargetsInRange (cs : CombatSystem) (attacker : GameUnit)
    (allUnits : List (ℕ × GameUnit)) : List GameUnit :=
  (cs.spatialHash.getUnitsInRadius attacker.position attacker.range).filterMap (fun uid =>
    match alookup allUnits uid with
    | some target =>
      if target.owner ≠ attacker.owner ∧ target.status ≠ .dead ∧ target.status ≠ .training then
        some target
      else none
    | none => none)

/-- Accumulator state of one `process_combat_tick` pass. -/
structure TickState where
  units : List (ℕ × GameUnit)
  combat : CombatSystem
  events : List CombatEvent
deriving DecidableEq, Repr

/-- The per-unit body of `CombatSystem.process_combat_tick`: a live
Idle/Attacking unit off cooldown attacks the first target in range
(damage divided by the conquest defense multiplier when a conquest system
is supplied), records the attack, and removes a killed target from the
spatial index; with no targets an Attacking unit reverts to Idle. -/
def combatTickStep (now : ℚ) (conquest : Option ConquestSystem) (st : TickState) (uid : ℕ) :
    TickState :=
  match alookup st.units uid with
  | none => st
  | some unit =>
    if unit.status = .dead then st
    else if ¬ (unit.status = .idle ∨ unit.status = .attacking) then st
    else if ¬ st.combat.canAttack unit.id now then st
    else
      match st.combat.findTargetsInRange unit st.units with
      | [] =>
        if unit.status = .attacking then
          { st with units := aset st.units uid { unit with status := .idle } }
        else st
      | target :: _ =>
        let damage0 := unit.calculateDamage target
        let damage :=
          match conquest with
          | some qs => pyTrunc ((damage0 : ℚ) / qs.getDefenseMultiplier target)
          | none => damage0
        let td := target.takeDamage damage
        let units' := aset (aset st.units target.id td.1) uid
          { unit with status := .attacking, lastAction := some now }
        let combat' := { st.combat with
          unitLastAttack := aset st.combat.unitLastAttack unit.id now }
        let ev : CombatEvent :=
          { kind := .attack, attackerId := unit.id, targetId := target.id, damage := damage,
            timestamp := now, position := unit.position, targetDied := td.2 }
        if td.2 then
          let dev : CombatEvent :=
            { kind := .death, attackerId := unit.id, targetId := target.id, damage := damage,
              timestamp := now, position := target.position, targetDied := true }
          { units := units', combat := combat'.removeUnit target.id,
            events := st.events ++ [ev] ++ [dev] }
        else
          { units := units', combat := combat', events := st.events ++ [ev] }

/-- `CombatSystem.process_combat_tick`: iterate over all units in insertion
order (the set-iteration order inside target acquisition is modelled by
candidate list order). -/
def CombatSystem.processCombatTick (cs : CombatSystem) (allUnits : List (ℕ × GameUnit))
    (now : ℚ) (conquest : Option ConquestSystem) : TickState :=
  (allUnits.map Prod.fst).foldl (combatTickStep now conquest) ⟨allUnits, cs, []⟩

/-- `UnitSystem.process_combat`: refresh the spatial hash from the current
units, then run one combat tick. -/
def UnitSystem.processCombat (us : UnitSystem) (now : ℚ) (conquest : Option ConquestSystem) :
    UnitSystem × List CombatEvent :=
  let cs := us.combatSystem.updateSpatialHash us.units
  let ts := cs.processCombatTick us.units now conquest
  ({ us with units := ts.units, combatSystem := ts.combat }, ts.events)

theorem auraFold_eq (u : GameUnit) (l : List AuraEffect) (acc : ℚ)
    (hm : ∀ a ∈ l, a.defenseMultiplier = 5 / 4) :
    l.foldl (fun best a =>
        if a.ownerId ≠ u.owner then best
        else if mdist u.position a.sourcePosition ≤ a.radius then
          max best a.defenseMultiplier
        else best) acc =
      if ∃ a ∈ l, a.ownerId = u.owner ∧ mdist u.position a.sourcePosition ≤ a.radius then
        max acc (5 / 4)
      else acc := by
  induction l generalizing acc with
  | nil => simp
  | cons a t ih =>
    have hma : a.defenseMultiplier = 5 / 4 := hm a (List.mem_cons_self a t)
    have hmt : ∀ b ∈ t, b.defenseMultiplier = 5 / 4 := fun b hb => hm b (List.mem_cons_of_mem a hb)
    by_cases ho : a.ownerId = u.owner
    · by_cases hr : mdist u.position a.sourcePosition ≤ a.radius
      · simp only [List.foldl_cons, ho, ne_eq, not_true, if_false, hr, if_true, hma,
          ih _ hmt]
        have hex : ∃ b ∈ a :: t, b.ownerId = u.owner ∧
            mdist u.position b.sourcePosition ≤ b.radius :=
          ⟨a, List.mem_cons_self a t, ho, hr⟩
        simp only [hex, if_true]
        by_cases hex' : ∃ b ∈ t, b.ownerId = u.owner ∧
            mdist u.position b.sourcePosition ≤ b.radius
        · simp [hex', max_assoc]
        · simp [hex']
      · simp only [List.foldl_cons, ho, ne_eq, not_true, if_false, hr, ih _ hmt]
        have hiff : (∃ b ∈ a :: t, b.ownerId = u.owner ∧
            mdist u.position b.sourcePosition ≤ b.radius) ↔
            (∃ b ∈ t, b.ownerId = u.owner ∧ mdist u.position b.sourcePosition ≤ b.radius) := by
          rw [List.exists_mem_cons_iff]
          simp [hr]
        simp only [hiff]
    · simp only [List.foldl_cons, ho, ne_eq, not_false_iff, if_true, ih _ hmt]
      have hiff : (∃ b ∈ a :: t, b.ownerId = u.owner ∧
          mdist u.position b.sourcePosition ≤ b.radius) ↔
          (∃ b ∈ t, b.ownerId = u.owner ∧ mdist u.position b.sourcePosition ≤ b.radius) := by
        rw [List.exists_mem_cons_iff]
        simp [ho]
      simp only [hiff]

/-- Whether some friendly watchtower aura (as recomputed by `update_auras`)
covers the unit's position. -/
def friendlyWatchtowerCovers (tiles : List Tile) (u : GameUnit) : Prop :=
  ∃ t ∈ tiles, t.ttype = .watchtower ∧ t.owner = some u.owner ∧
    mdist u.position ⟨t.x, t.y⟩ ≤ tileAuraRadius t

instance (tiles : List Tile) (u : GameUnit) : Decidable (friendlyWatchtowerCovers tiles u) := by
  unfold friendlyWatchtowerCovers
  infer_instance

theorem getDefenseMultiplier_updateAuras (tiles : List Tile) (hist : List RaidResult)
    (u : GameUnit) :
    ConquestSystem.getDefenseMultiplier ⟨updateAuras tiles, hist⟩ u =
      if friendlyWatchtowerCovers tiles u then 5 / 4 else 1 := by
  have hm : ∀ a ∈ updateAuras tiles, a.defenseMultiplier = 5 / 4 := by
    intro a ha
    rcases List.mem_filterMap.mp ha with ⟨t, _, hft⟩
    rcases hwo : t.owner with _ | o
    · rw [hwo] at hft; simp at hft
    · rw [hwo] at hft
      by_cases hw : t.ttype = TileType.watchtower
      · simp only [hw, if_true] at hft
        injection hft with hft
        rw [← hft]
      · simp [hw] at hft
  have hex : (∃ a ∈ updateAuras tiles, a.ownerId = u.owner ∧
      mdist u.position a.sourcePosition ≤ a.radius) ↔ friendlyWatchtowerCovers tiles u := by
    constructor
    · intro ⟨a, ha, hao, har⟩
      rcases List.mem_filterMap.mp ha with ⟨t, hmem, hft⟩
      rcases hwo : t.owner with _ | o
      · rw [hwo] at hft; simp at hft
      · rw [hwo] at hft
        by_cases hw : t.ttype = TileType.watchtower
        · simp only [hw, if_true] at hft
          injection hft with hft
          refine ⟨t, hmem, hw, ?_, ?_⟩
          · rw [hwo]
            rw [← hft] at hao
            simp only at hao
            rw [hao]
          · rw [← hft] at har
            simpa using har
        · simp [hw] at hft
    · intro ⟨t, hmem, hw, hto, hdist⟩
      refine ⟨⟨⟨t.x, t.y⟩, tileAuraRadius t, 5 / 4, u.owner⟩, ?_, rfl, by simpa using hdist⟩
      apply List.mem_filterMap.mpr
      refine ⟨t, hmem, ?_⟩
      rw [hto]
      simp [hw]
  simp only [ConquestSystem.getDefenseMultiplier]
  by_cases hnil : updateAuras tiles = []
  · have hnc : ¬ friendlyWatchtowerCovers tiles u := by
      intro hc
      rw [← hex] at hc
      rcases hc with ⟨a, ha, _⟩
      rw [hnil] at ha
      simp at ha
    simp [hnil, hnc]
  · simp only [hnil, if_false]
    rw [auraFold_eq u _ 1 hm]
    simp only [hex]
    by_cases hc : friendlyWatchtowerCovers tiles u
    · simp only [hc, if_true]
      norm_num
    · simp [hc]

/-- The damage contract of a single attack event under a supplied conquest
system (Claim C4's per-event property). -/
def c4AttackSpec (tiles : List Tile) (qs : ConquestSystem) (e : CombatEvent) : Prop :=
  e.kind = .attack →
  ∃ a t : GameUnit,
    e.attackerId = a.id ∧ e.targetId = t.id ∧
    e.damage = pyTrunc ((a.calculateDamage t : ℚ) / qs.getDefenseMultiplier t) ∧
    qs.getDefenseMultiplier t = (if friendlyWatchtowerCovers tiles t then 5 / 4 else 1) ∧
    e.targetDied = (t.takeDamage e.damage).2

theorem combatTickStep_c4 (tiles : List Tile) (hist : List RaidResult) (now : ℚ)
    (st : TickState) (uid : ℕ)
    (h : ∀ e ∈ st.events, c4AttackSpec tiles ⟨updateAuras tiles, hist⟩ e) :
    ∀ e ∈ (combatTickStep now (some ⟨updateAuras tiles, hist⟩) st uid).events,
      c4AttackSpec tiles ⟨updateAuras tiles, hist⟩ e := by
  intro e he
  rcases hlu : alookup st.units uid with _ | unit
  · simp only [combatTickStep, hlu] at he
    exact h e he
  · simp only [combatTickStep, hlu] at he
    by_cases hdead : unit.status = UnitStatus.dead
    · simp only [hdead, if_true] at he
      exact h e he
    · simp only [hdead, if_false] at he
      by_cases helig : unit.status = UnitStatus.idle ∨ unit.status = UnitStatus.attacking
      · rw [if_neg (not_not_intro helig)] at he
        by_cases hca : st.combat.canAttack unit.id now = true
        · rw [if_neg (not_not_intro hca)] at he
          rcases htg : st.combat.findTargetsInRange unit st.units with _ | ⟨target, rest⟩
          · rw [htg] at he
            by_cases hatt : unit.status = UnitStatus.attacking
            · simp only [hatt, if_true] at he
              exact h e he
            · simp only [hatt, if_false] at he
              exact h e he
          · rw [htg] at he
            simp only at he
            by_cases hdied : (target.takeDamage (pyTrunc
                ((unit.calculateDamage target : ℚ) /
                  ConquestSystem.getDefenseMultiplier ⟨updateAuras tiles, hist⟩ target))).2 = true
            · simp only [hdied, if_true] at he
              rcases List.mem_append.mp he with he' | he'
              · rcases List.mem_append.mp he' with he'' | he''
                · exact h e he''
                · rw [List.mem_singleton] at he''
                  subst he''
                  intro _
                  exact ⟨unit, target, rfl, rfl, rfl,
                    getDefenseMultiplier_updateAuras tiles hist target, by rw [hdied]⟩
              · rw [List.mem_singleton] at he'
                subst he'
                intro hk
                simp at hk
            · simp only [hdied, if_false, Bool.not_eq_true] at he
              rcases List.mem_append.mp he with he' | he'
              · exact h e he'
              · rw [List.mem_singleton] at he'
                subst he'
                intro _
                refine ⟨unit, target, rfl, rfl, rfl,
                  getDefenseMultiplier_updateAuras tiles hist target, ?_⟩
                simp only at hdied ⊢
                rw [Bool.not_eq_true] at hdied
                rw [hdied]
        · rw [if_pos hca] at he
          exact h e he
      · rw [if_pos helig] at he
        exact h e he

/-- Claim C4: in a combat tick run with a ConquestSystem supplied (auras
recomputed by `update_auras`), every attack event's damage equals the base
type-effectiveness damage integer-divided by the target's defense
multiplier, where the multiplier is 1.25 exactly when at least one
watchtower aura owned by the target's own player covers the target
(overlapping friendly auras never exceed that single best multiplier, and
enemy-owned auras contribute nothing), and the damage is applied to the
target via `take_damage`. -/
theorem combat_tick_damage_spec (tiles : List Tile) (hist : List RaidResult)
    (units : List (ℕ × GameUnit)) (cs : CombatSystem) (now : ℚ) :
    ∀ e ∈ (cs.processCombatTick units now (some ⟨updateAuras tiles, hist⟩)).events,
      e.kind = .attack →
      ∃ a t : GameUnit,
        e.attackerId = a.id ∧ e.targetId = t.id ∧
        e.damage = pyTrunc ((a.calculateDamage t : ℚ) /
          ConquestSystem.getDefenseMultiplier ⟨updateAuras tiles, hist⟩ t) ∧
        ConquestSystem.getDefenseMultiplier ⟨updateAuras tiles, hist⟩ t =
          (if friendlyWatchtowerCovers tiles t then 5 / 4 else 1) ∧
        e.targetDied = (t.takeDamage e.damage).2 := by
  have hgen : ∀ (ids : List ℕ) (st : TickState),
      (∀ e ∈ st.events, c4AttackSpec tiles ⟨updateAuras tiles, hist⟩ e) →
      ∀ e ∈ (ids.foldl (combatTickStep now (some ⟨updateAuras tiles, hist⟩)) st).events,
        c4AttackSpec tiles ⟨updateAuras tiles, hist⟩ e := by
    intro ids
    induction ids with
    | nil => intro st h; exact h
    | cons i t ih =>
      intro st h
      exact ih _ (combatTickStep_c4 tiles hist now st i h)
  intro e he
  exact hgen (units.map Prod.fst) ⟨units, cs, []⟩ (by intro e' he'; simp at he') e he

/-- An idle infantry attacker at the origin (owner 1). -/
def c4Attacker : GameUnit :=
  { id := 1, utype := .infantry, owner := 1, position := ⟨0, 0⟩, hp := 100, maxHp := 100,
    attack := 20, defense := 15, speed := 1, range := 1, status := .idle, target := none,
    lastAction := none, metadata := none }

/-- An adjacent enemy unit (owner 2), Moving so it does not attack back. -/
def c4Target : GameUnit :=
  { id := 2, utype := .infantry, owner := 2, position := ⟨1, 0⟩, hp := 100, maxHp := 100,
    attack := 20, defense := 15, speed := 1, range := 1, status := .moving, target := none,
    lastAction := none, metadata := none }

/-- The two-unit map of the concrete combat scenario. -/
def c4Units : List (ℕ × GameUnit) := [(1, c4Attacker), (2, c4Target)]

/-- Combat system holding both units in its spatial hash. -/
def c4CS : CombatSystem :=
  ⟨((SpatialHash.empty 4).addUnit 1 ⟨0, 0⟩).addUnit 2 ⟨1, 0⟩, [], 1⟩

theorem combat_tick_damage_spec_witness :
    ((⟨.attack, 1, 2, 20, 5, ⟨0, 0⟩, false⟩ : CombatEvent) ∈
        (c4CS.processCombatTick c4Units 5 (some ⟨updateAuras [], []⟩)).events ∧
      (⟨.attack, 1, 2, 20, 5, ⟨0, 0⟩, false⟩ : CombatEvent).kind = .attack) ∧
      ∃ a t : GameUnit,
        (⟨.attack, 1, 2, 20, 5, ⟨0, 0⟩, false⟩ : CombatEvent).attackerId = a.id ∧
        (⟨.attack, 1, 2, 20, 5, ⟨0, 0⟩, false⟩ : CombatEvent).targetId = t.id ∧
        (⟨.attack, 1, 2, 20, 5, ⟨0, 0⟩, false⟩ : CombatEvent).damage =
          pyTrunc ((a.calculateDamage t : ℚ) /
            ConquestSystem.getDefenseMultiplier ⟨updateAuras [], []⟩ t) ∧
        ConquestSystem.getDefenseMultiplier ⟨updateAuras [], []⟩ t =
          (if friendlyWatchtowerCovers [] t then 5 / 4 else 1) ∧
        (⟨.attack, 1, 2, 20, 5, ⟨0, 0⟩, false⟩ : CombatEvent).targetDied =
          (t.takeDamage (⟨.attack, 1, 2, 20, 5, ⟨0, 0⟩, false⟩ : CombatEvent).damage).2 := by
  have hq : c4CS.spatialHash.getUnitsInRadius ⟨0, 0⟩ 1 = [1, 2] := by decide
  have htg : c4CS.findTargetsInRange c4Attacker c4Units = [c4Target] := by
    rw [CombatSystem.findTargetsInRange]
    rw [show c4Attacker.position = (⟨0, 0⟩ : Position) from rfl,
        show c4Attacker.range = 1 from rfl, hq]
    decide
  have hca : c4CS.canAttack 1 5 = true := by
    rw [CombatSystem.canAttack]
    simp only [alookup, Option.getD_none]
    rw [show c4CS.attackCooldown = 1 from rfl]
    norm_num
  have hfl20 : ⌊(20 : ℚ)⌋ = 20 := by
    rw [show (20 : ℚ) = ((20 : ℤ) : ℚ) by norm_num, Int.floor_intCast]
  have hd0 : c4Attacker.calculateDamage c4Target = 20 := by
    rw [GameUnit.calculateDamage]
    rw [show c4Attacker.getCombatMultiplier c4Target.utype = 1 from rfl]
    rw [show c4Attacker.attack = 20 from rfl]
    rw [pyTrunc, if_pos (by norm_num)]
    rw [show ((20 : ℕ) : ℚ) * 1 = (20 : ℚ) by norm_num]
    exact hfl20
  have hmult : ConquestSystem.getDefenseMultiplier ⟨updateAuras [], []⟩ c4Target = 1 := rfl
  have hdam : pyTrunc ((c4Attacker.calculateDamage c4Target : ℚ) /
      ConquestSystem.getDefenseMultiplier ⟨updateAuras [], []⟩ c4Target) = 20 := by
    rw [hd0, hmult]
    rw [pyTrunc, if_pos (by norm_num)]
    rw [show ((20 : ℤ) : ℚ) / 1 = ((20 : ℤ) : ℚ) by norm_num, Int.floor_intCast]
  have htd : c4Target.takeDamage 20 =
      ({ c4Target with hp := 80 }, false) := by
    rw [GameUnit.takeDamage]
    rw [show c4Target.hp = 100 from rfl]
    norm_num
    decide
  have hstep1 : combatTickStep 5 (some ⟨updateAuras [], []⟩) ⟨c4Units, c4CS, []⟩ 1 =
      ⟨aset (aset c4Units 2 { c4Target with hp := 80 }) 1
          { c4Attacker with status := .attacking, lastAction := some 5 },
        { c4CS with unitLastAttack := aset c4CS.unitLastAttack 1 5 },
        [⟨.attack, 1, 2, 20, 5, ⟨0, 0⟩, false⟩]⟩ := by
    have hlu1 : alookup c4Units 1 = some c4Attacker := rfl
    simp only [combatTickStep, hlu1]
    rw [if_neg (by decide), if_neg (by decide)]
    rw [show c4Attacker.id = 1 from rfl]
    rw [if_neg (not_not_intro hca)]
    rw [htg]
    simp only
    rw [hdam, htd]
    rfl
  have hstep2 : combatTickStep 5 (some ⟨updateAuras [], []⟩)
      ⟨aset (aset c4Units 2 { c4Target with hp := 80 }) 1
          { c4Attacker with status := .attacking, lastAction := some 5 },
        { c4CS with unitLastAttack := aset c4CS.unitLastAttack 1 5 },
        [⟨.attack, 1, 2, 20, 5, ⟨0, 0⟩, false⟩]⟩ 2 =
      ⟨aset (aset c4Units 2 { c4Target with hp := 80 }) 1
          { c4Attacker with status := .attacking, lastAction := some 5 },
        { c4CS with unitLastAttack := aset c4CS.unitLastAttack 1 5 },
        [⟨.attack, 1, 2, 20, 5, ⟨0, 0⟩, false⟩]⟩ := by
    have hlu2 : alookup (aset (aset c4Units 2 { c4Target with hp := 80 }) 1
        { c4Attacker with status := .attacking, lastAction := some 5 }) 2 =
        some { c4Target with hp := 80 } := rfl
    simp only [combatTickStep, hlu2]
    rw [if_neg (by decide), if_pos (by decide)]
  have hevents : (c4CS.processCombatTick c4Units 5 (some ⟨updateAuras [], []⟩)).events =
      [⟨.attack, 1, 2, 20, 5, ⟨0, 0⟩, false⟩] := by
    rw [CombatSystem.processCombatTick]
    rw [show c4Units.map Prod.fst = [1, 2] from rfl]
    rw [List.foldl_cons, hstep1, List.foldl_cons, hstep2, List.foldl_nil]
  refine ⟨⟨?_, rfl⟩, ?_⟩
  · rw [hevents]
    exact List.mem_singleton.mpr rfl
  · exact combat_tick_damage_spec [] [] c4Units c4CS 5 _
      (by rw [hevents]; exact List.mem_singleton.mpr rfl) rfl

theorem alookup_mem {κ ν : Type} [DecidableEq κ] {l : List (κ × ν)} {k : κ} {v : ν}
    (h : alookup l k = some v) : (k, v) ∈ l := by
  induction l with
  | nil => simp [alookup] at h
  | cons e t ih =>
    rcases e with ⟨k₀, v₀⟩
    rw [alookup] at h
    by_cases h₀ : k₀ = k
    · rw [if_pos h₀] at h
      injection h with h'
      exact List.mem_cons.mpr (Or.inl (by rw [h₀, h']))
    · rw [if_neg h₀] at h
      exact List.mem_cons.mpr (Or.inr (ih h))

theorem alookup_of_mem_nodup {κ ν : Type} [DecidableEq κ] {l : List (κ × ν)}
    (hnd : (l.map Prod.fst).Nodup) {k : κ} {v : ν} (hm : (k, v) ∈ l) :
    alookup l k = some v := by
  induction l with
  | nil => simp at hm
  | cons e t ih =>
    rcases e with ⟨k₀, v₀⟩
    rw [List.map_cons, List.nodup_cons] at hnd
    rcases List.mem_cons.mp hm with he | ht
    · injection he with h1 h2
      subst h1
      subst h2
      rw [alookup, if_pos rfl]
    · have hk : k₀ ≠ k := by
        intro hh
        subst hh
        exact hnd.1 (List.mem_map.mpr ⟨(k₀, v), ht, rfl⟩)
      rw [alookup, if_neg hk]
      exact ih hnd.2 ht

theorem takeDamage_fst_id (u : GameUnit) (d : ℤ) : (u.takeDamage d).1.id = u.id := by
  simp only [GameUnit.takeDamage]
  split <;> rfl

theorem takeDamage_fst_hp (u : GameUnit) (d : ℤ) :
    (u.takeDamage d).1.hp = (max 0 ((u.hp : ℤ) - d)).toNat := by
  simp only [GameUnit.takeDamage]
  split <;> rfl

theorem takeDamage_died_iff (u : GameUnit) (d : ℤ) :
    (u.takeDamage d).2 = true ↔ (u.takeDamage d).1.hp = 0 := by
  simp only [GameUnit.takeDamage]
  split <;> rename_i h <;> simp <;> omega

theorem takeDamage_status_not_died (u : GameUnit) (d : ℤ)
    (h : (u.takeDamage d).2 = false) : (u.takeDamage d).1.status = u.status := by
  simp only [GameUnit.takeDamage] at h ⊢
  split at h
  · simp at h
  · rename_i hc
    rw [if_neg hc]

theorem takeDamage_status_iff (u : GameUnit) (d : ℤ) (hd : 0 ≤ d)
    (hinv : u.status = .dead ↔ u.hp = 0) :
    ((u.takeDamage d).1.status = .dead ↔ (u.takeDamage d).1.hp = 0) := by
  simp only [GameUnit.takeDamage]
  split
  · rename_i h
    simp
    omega
  · rename_i h
    simp
    constructor
    · intro hs
      have h0 := hinv.mp hs
      omega
    · intro h0
      exact absurd h0 (by omega)

/-- The dictionary discipline of `UnitSystem.units`: the value stored at a
key is the unit whose id is that key. -/
def UnitsIdWF (units : List (ℕ × GameUnit)) : Prop :=
  ∀ k u, alookup units k = some u → u.id = k

/-- No Dead unit of the unit dictionary is present in the spatial index. -/
def NoDeadIdx (units : List (ℕ × GameUnit)) (sh : SpatialHash) : Prop :=
  ∀ k u, alookup units k = some u → u.status = .dead →
    alookup sh.unitPositions k = none

theorem unitsIdWF_aset {l : List (ℕ × GameUnit)} {k : ℕ} {v : GameUnit}
    (h : UnitsIdWF l) (hv : v.id = k) : UnitsIdWF (aset l k v) := by
  intro k' u hk'
  by_cases hkk : k' = k
  · subst hkk
    rw [alookup_aset] at hk'
    injection hk' with h2
    rw [← h2]
    exact hv
  · rw [alookup_aset_ne _ _ _ _ (fun hh => hkk hh.symm)] at hk'
    exact h k' u hk'

theorem alookup_removeUnit_self (sh : SpatialHash) (uid : ℕ) :
    alookup (sh.removeUnit uid).unitPositions uid = none := by
  rcases h : alookup sh.unitPositions uid with _ | p
  · simp only [SpatialHash.removeUnit, h]
  · simp only [SpatialHash.removeUnit, h]
    exact alookup_adel _ _

theorem alookup_removeUnit_ne (sh : SpatialHash) (uid k : ℕ) (h : k ≠ uid) :
    alookup (sh.removeUnit uid).unitPositions k = alookup sh.unitPositions k := by
  rcases hq : alookup sh.unitPositions uid with _ | p
  · simp only [SpatialHash.removeUnit, hq]
  · simp only [SpatialHash.removeUnit, hq]
    exact alookup_adel_ne _ _ _ (fun hh => h hh.symm)

theorem lookup_of_mem_query (sh : SpatialHash) (center : Position) (radius : ℕ) (uid : ℕ)
    (h : uid ∈ sh.getUnitsInRadius center radius) :
    ∃ p, alookup sh.unitPositions uid = some p ∧ mdist p center ≤ radius := by
  simp only [SpatialHash.getUnitsInRadius, List.mem_flatMap] at h
  rcases h with ⟨dx, hdx, dy, hdy, hmem⟩
  rcases hg : alookup sh.grid
      ((cellKey sh.cellSize center).1 + dx, (cellKey sh.cellSize center).2 + dy)
      with _ | ids
  · rw [hg] at hmem
    simp at hmem
  · rw [hg] at hmem
    have hmem' := List.mem_filter.mp hmem
    have hcond := hmem'.2
    rcases hq : alookup sh.unitPositions uid with _ | q
    · rw [hq] at hcond
      simp at hcond
    · rw [hq] at hcond
      simp only [decide_eq_true_eq] at hcond
      exact ⟨q, rfl, hcond⟩

theorem findTargetsInRange_not_dead (cs : CombatSystem) (a : GameUnit)
    (units : List (ℕ × GameUnit)) :
    ∀ t ∈ cs.findTargetsInRange a units, ¬ t.status = .dead := by
  intro t ht
  simp only [CombatSystem.findTargetsInRange, List.mem_filterMap] at ht
  obtain ⟨c, hc, hm⟩ := ht
  split at hm
  · split at hm
    · rename_i tgt heq hcond
      injection hm with hm'
      rw [← hm']
      exact hcond.2.1
    · simp at hm
  · simp at hm

theorem c9_step_attack (st : TickState) (uid : ℕ) (unit target : GameUnit) (dmg : ℤ)
    (now : ℚ) (ts : TickState)
    (hwf : UnitsIdWF st.units) (hnd : NoDeadIdx st.units st.combat.spatialHash)
    (huid : unit.id = uid) (htst : ¬ target.status = .dead)
    (hu : ts.units = aset (aset st.units target.id (target.takeDamage dmg).1) uid
        { unit with status := .attacking, lastAction := some now })
    (hsh : ts.combat.spatialHash =
        if (target.takeDamage dmg).2 = true then st.combat.spatialHash.removeUnit target.id
        else st.combat.spatialHash) :
    UnitsIdWF ts.units ∧ NoDeadIdx ts.units ts.combat.spatialHash := by
  constructor
  · rw [hu]
    exact unitsIdWF_aset (unitsIdWF_aset hwf (takeDamage_fst_id target dmg)) huid
  · intro k u hk hd
    rw [hu] at hk
    rw [hsh]
    by_cases hku : k = uid
    · subst hku
      rw [alookup_aset] at hk
      injection hk with hk'
      rw [← hk'] at hd
      simp at hd
    · rw [alookup_aset_ne _ _ _ _ (fun hh => hku hh.symm)] at hk
      by_cases hkt : k = target.id
      · subst hkt
        rw [alookup_aset] at hk
        injection hk with hk'
        by_cases h2 : (target.takeDamage dmg).2 = true
        · rw [if_pos h2]
          exact alookup_removeUnit_self _ _
        · rw [if_neg h2]
          rw [← hk'] at hd
          rw [takeDamage_status_not_died target dmg (Bool.not_eq_true _ ▸ h2)] at hd
          exact absurd hd htst
      · rw [alookup_aset_ne _ _ _ _ (fun hh => hkt hh.symm)] at hk
        have h0 := hnd k u hk hd
        by_cases h2 : (target.takeDamage dmg).2 = true
        · rw [if_pos h2]
          rw [alookup_removeUnit_ne _ _ _ hkt]
          exact h0
        · rw [if_neg h2]
          exact h0

theorem combatTickStep_noDead (now : ℚ) (cq : Option ConquestSystem) (st : TickState)
    (uid : ℕ) (hwf : UnitsIdWF st.units)
    (hnd : NoDeadIdx st.units st.combat.spatialHash) :
    UnitsIdWF (combatTickStep now cq st uid).units ∧
      NoDeadIdx (combatTickStep now cq st uid).units
        (combatTickStep now cq st uid).combat.spatialHash := by
  rcases hlu : alookup st.units uid with _ | unit
  · simp only [combatTickStep, hlu]
    exact ⟨hwf, hnd⟩
  · simp only [combatTickStep, hlu]
    by_cases hdead : unit.status = UnitStatus.dead
    · rw [if_pos hdead]
      exact ⟨hwf, hnd⟩
    · rw [if_neg hdead]
      by_cases helig : unit.status = UnitStatus.idle ∨ unit.status = UnitStatus.attacking
      · rw [if_neg (not_not_intro helig)]
        by_cases hca : st.combat.canAttack unit.id now = true
        · rw [if_neg (not_not_intro hca)]
          rcases htg : st.combat.findTargetsInRange unit st.units with _ | ⟨target, rest⟩
          · simp only
            by_cases hatt : unit.status = UnitStatus.attacking
            · rw [if_pos hatt]
              constructor
              · exact unitsIdWF_aset hwf (hwf uid unit hlu)
              · intro k u hk hd
                by_cases hku : k = uid
                · subst hku
                  rw [alookup_aset] at hk
                  injection hk with hk'
                  rw [← hk'] at hd
                  simp at hd
                · rw [alookup_aset_ne _ _ _ _ (fun hh => hku hh.symm)] at hk
                  exact hnd k u hk hd
            · rw [if_neg hatt]
              exact ⟨hwf, hnd⟩
          · have htst := findTargetsInRange_not_dead st.combat unit st.units target
              (by rw [htg]; exact List.mem_cons_self target rest)
            simp only
            rcases cq with _ | qs
            · simp only
              refine c9_step_attack st uid unit target (unit.calculateDamage target) now _
                hwf hnd (hwf uid unit hlu) htst ?_ ?_
              · split <;> rfl
              · split <;> simp [*, CombatSystem.removeUnit]
            · simp only
              refine c9_step_attack st uid unit target
                (pyTrunc ((unit.calculateDamage target : ℚ) /
                  qs.getDefenseMultiplier target)) now _
                hwf hnd (hwf uid unit hlu) htst ?_ ?_
              · split <;> rfl
              · split <;> simp [*, CombatSystem.removeUnit]
        · rw [if_pos hca]
          exact ⟨hwf, hnd⟩
      · rw [if_pos helig]
        exact ⟨hwf, hnd⟩

theorem tickFold_noDead (now : ℚ) (cq : Option ConquestSystem) :
    ∀ (ids : List ℕ) (st : TickState),
      UnitsIdWF st.units → NoDeadIdx st.units st.combat.spatialHash →
      UnitsIdWF ((ids.foldl (combatTickStep now cq) st)).units ∧
        NoDeadIdx ((ids.foldl (combatTickStep now cq) st)).units
          ((ids.foldl (combatTickStep now cq) st)).combat.spatialHash := by
  intro ids
  induction ids with
  | nil => intro st h1 h2; exact ⟨h1, h2⟩
  | cons i t ih =>
    intro st h1 h2
    rw [List.foldl_cons]
    obtain ⟨h1', h2'⟩ := combatTickStep_noDead now cq st i h1 h2
    exact ih _ h1' h2'

theorem alookup_rebuildFold_none (units : List (ℕ × GameUnit)) (k : ℕ) :
    ∀ sh : SpatialHash, alookup sh.unitPositions k = none →
      (∀ e ∈ units, ¬ e.2.status = .dead → ¬ e.2.id = k) →
      alookup ((units.foldl
          (fun sh e => if e.2.status ≠ .dead then sh.addUnit e.2.id e.2.position else sh)
          sh)).unitPositions k = none := by
  induction units with
  | nil => intro sh h0 _; exact h0
  | cons e t ih =>
    intro sh h0 hall
    rw [List.foldl_cons]
    apply ih
    · by_cases hs : e.2.status = .dead
      · rw [if_neg (not_not_intro hs)]
        exact h0
      · rw [if_pos hs]
        simp only [SpatialHash.addUnit]
        rw [alookup_aset_ne _ _ _ _ (hall e (List.mem_cons_self e t) hs)]
        exact h0
    · intro e' he' hs'
      exact hall e' (List.mem_cons_of_mem _ he') hs'

theorem noDead_updateSpatialHash (cs : CombatSystem) (units : List (ℕ × GameUnit))
    (hwf : ∀ e ∈ units, e.2.id = e.1) (hnd : (units.map Prod.fst).Nodup) :
    NoDeadIdx units (cs.updateSpatialHash units).spatialHash := by
  intro k u hk hd
  simp only [CombatSystem.updateSpatialHash]
  apply alookup_rebuildFold_none units k (SpatialHash.empty cs.spatialHash.cellSize) rfl
  intro e he hs hik
  have hek : e.1 = k := by rw [← hwf e he]; exact hik
  have he' : (k, e.2) ∈ units := by rw [← hek]; exact he
  have hl := alookup_of_mem_nodup hnd he'
  rw [hk] at hl
  injection hl with h2
  exact hs (h2 ▸ hd)

/-- Claim C9: `take_damage` clamps hp at 0, reports death exactly when the
resulting hp is 0, and (for non-negative damage) preserves the invariant
that a unit's status is Dead iff its hp is 0; after a spatial-hash rebuild
(`update_spatial_hash`) and after a full combat pass (`process_combat`,
which rebuilds the hash and then runs one combat tick that removes killed
targets from the index), no Dead unit's id appears in the spatial index,
so subsequent radius queries never return it. -/
theorem unit_death_spatial_invariant :
    (∀ (u : GameUnit) (d : ℤ),
      (u.takeDamage d).1.hp = (max 0 ((u.hp : ℤ) - d)).toNat ∧
      ((u.takeDamage d).2 = true ↔ (u.takeDamage d).1.hp = 0) ∧
      (0 ≤ d → (u.status = .dead ↔ u.hp = 0) →
        ((u.takeDamage d).1.status = .dead ↔ (u.takeDamage d).1.hp = 0))) ∧
    (∀ (cs : CombatSystem) (units : List (ℕ × GameUnit)),
      (∀ e ∈ units, e.2.id = e.1) → (units.map Prod.fst).Nodup →
      ∀ k u, alookup units k = some u → u.status = .dead →
        ∀ c r, k ∉ (cs.updateSpatialHash units).spatialHash.getUnitsInRadius c r) ∧
    (∀ (us : UnitSystem) (now : ℚ) (cq : Option ConquestSystem),
      (∀ e ∈ us.units, e.2.id = e.1) → (us.units.map Prod.fst).Nodup →
      ∀ k u, alookup (us.processCombat now cq).1.units k = some u → u.status = .dead →
        ∀ c r,
          k ∉ (us.processCombat now cq).1.combatSystem.spatialHash.getUnitsInRadius c r) := by
  refine ⟨?_, ?_, ?_⟩
  · intro u d
    exact ⟨takeDamage_fst_hp u d, takeDamage_died_iff u d,
      fun hd hinv => takeDamage_status_iff u d hd hinv⟩
  · intro cs units hwf hnodup k u hk hd c r hq
    have h0 := noDead_updateSpatialHash cs units hwf hnodup k u hk hd
    obtain ⟨q, hq', _⟩ := lookup_of_mem_query _ _ _ _ hq
    rw [h0] at hq'
    simp at hq'
  · intro us now cq hwf hnodup k u hk hd c r hq
    have hwfa : UnitsIdWF us.units := fun k' u' hk' => hwf (k', u') (alookup_mem hk')
    have hnd0 := noDead_updateSpatialHash us.combatSystem us.units hwf hnodup
    have hfold := tickFold_noDead now cq (us.units.map Prod.fst)
      ⟨us.units, us.combatSystem.updateSpatialHash us.units, []⟩ hwfa hnd0
    simp only [UnitSystem.processCombat, CombatSystem.processCombatTick] at hk hq
    have h0 := hfold.2 k u hk hd
    obtain ⟨q, hq', _⟩ := lookup_of_mem_query _ _ _ _ hq
    rw [h0] at hq'
    simp at hq'

/-- A Dead unit with hp 0 stored under its id. -/
def c9DeadUnit : GameUnit :=
  { id := 1, utype := .infantry, owner := 1, position := ⟨0, 0⟩, hp := 0, maxHp := 100,
    attack := 20, defense := 15, speed := 1, range := 1, status := .dead, target := none,
    lastAction := none, metadata := none }

/-- A live unit stored alongside the dead one. -/
def c9LiveUnit : GameUnit :=
  { id := 2, utype := .infantry, owner := 2, position := ⟨1, 0⟩, hp := 50, maxHp := 100,
    attack := 20, defense := 15, speed := 1, range := 1, status := .idle, target := none,
    lastAction := none, metadata := none }

/-- Unit dictionary of the concrete dead-unit scenario. -/
def c9Units : List (ℕ × GameUnit) := [(1, c9DeadUnit), (2, c9LiveUnit)]

theorem unit_death_spatial_invariant_witness :
    ((∀ e ∈ c9Units, e.2.id = e.1) ∧ (c9Units.map Prod.fst).Nodup ∧
        alookup c9Units 1 = some c9DeadUnit ∧ c9DeadUnit.status = .dead) ∧
      1 ∉ (CombatSystem.empty.updateSpatialHash c9Units).spatialHash.getUnitsInRadius
        ⟨0, 0⟩ 5 :=
  ⟨⟨by decide, by decide, rfl, rfl⟩,
    unit_death_spatial_invariant.2.1 CombatSystem.empty c9Units (by decide) (by decide)
      1 c9DeadUnit rfl rfl ⟨0, 0⟩ 5⟩

/-- The Python exception kinds the embedded operations can raise. -/
inductive PyErr where
  | typeErr
deriving DecidableEq, Repr

/-- `UnitSystem.move_unit` from `models/unit.py`: an unknown or Dead unit
returns `False` without touching any state; otherwise the method builds the
blocked-position set (a pure computation) and then invokes
`self.pathfinder.find_path(unit.position, target_position, blocked_positions,
valid_tile_positions)` — four positional arguments to a method declared with
three parameters (`start`, `goal`, `blocked_positions`), so Python raises
`TypeError` at the call before any unit, movement or index state is
mutated. -/
def UnitSystem.moveUnit (us : UnitSystem) (unitId : ℕ) (targetPosition : Position)
    (validTilePositions : Option (List Position)) : Except PyErr (Bool × UnitSystem) :=
  match alookup us.units unitId with
  | none => .ok (false, us)
  | some u =>
    if u.status = .dead then .ok (false, us)
    else .error .typeErr

/-- Claim C1 (code bug): `move_unit` rejects unknown and Dead units without
mutating state, but on every live unit it raises `TypeError` instead of
pathfinding, because it passes four positional arguments to the
three-parameter `Pathfinder.find_path`; no call ever installs a path or
returns `True`. -/
theorem move_unit_always_raises (us : UnitSystem) (unitId : ℕ) (tp : Position)
    (vt : Option (List Position)) :
    (alookup us.units unitId = none →
      us.moveUnit unitId tp vt = .ok (false, us)) ∧
    (∀ u, alookup us.units unitId = some u → u.status = .dead →
      us.moveUnit unitId tp vt = .ok (false, us)) ∧
    (∀ u, alookup us.units unitId = some u → ¬ u.status = .dead →
      us.moveUnit unitId tp vt = .error .typeErr) := by
  refine ⟨?_, ?_, ?_⟩
  · intro h
    simp only [UnitSystem.moveUnit, h]
  · intro u h hd
    simp only [UnitSystem.moveUnit, h]
    rw [if_pos hd]
  · intro u h hd
    simp only [UnitSystem.moveUnit, h]
    rw [if_neg hd]

/-- The unit system of the concrete live-unit movement request. -/
def c1System : UnitSystem :=
  ⟨c9Units, MovementSystem.empty, CombatSystem.empty, 40, 40, []⟩

theorem move_unit_always_raises_witness :
    (alookup c1System.units 2 = some c9LiveUnit ∧ ¬ c9LiveUnit.status = .dead) ∧
      c1System.moveUnit 2 ⟨12, 12⟩ none = .error .typeErr :=
  ⟨⟨rfl, by decide⟩,
    (move_unit_always_raises c1System 2 ⟨12, 12⟩ none).2.2 c9LiveUnit rfl (by decide)⟩

/-- `Pathfinder` from `pathfinding.py` (default 40x40 grid; terrain weights
default to 1.0 for unset positions). -/
structure Pathfinder where
  gridWidth : ℕ
  gridHeight : ℕ
  terrainWeights : List (Position × ℚ)
deriving DecidableEq, Repr

/-- `Pathfinder.is_valid_position` (coordinates are non-negative `ℕ`, so
only the upper bounds remain). -/
def Pathfinder.isValidPosition (pf : Pathfinder) (p : Position) : Bool :=
  decide (p.x < pf.gridWidth ∧ p.y < pf.gridHeight)

/-- `Pathfinder.get_terrain_weight`: stored weight, defaulting to 1.0. -/
def Pathfinder.getTerrainWeight (pf : Pathfinder) (p : Position) : ℚ :=
  (alookup pf.terrainWeights p).getD 1

/-- `Pathfinder.get_neighbors`: the in-bounds 4-neighbours in source order
Up, Right, Down, Left. -/
def Pathfinder.getNeighbors (pf : Pathfinder) (p : Position) : List Position :=
  [((p.x : ℤ), (p.y : ℤ) + 1), ((p.x : ℤ) + 1, (p.y : ℤ)),
   ((p.x : ℤ), (p.y : ℤ) - 1), ((p.x : ℤ) - 1, (p.y : ℤ))].filterMap (fun q =>
    if 0 ≤ q.1 ∧ q.1 < (pf.gridWidth : ℤ) ∧ 0 ≤ q.2 ∧ q.2 < (pf.gridHeight : ℤ) then
      some ⟨q.1.toNat, q.2.toNat⟩
    else none)

/-- The mutable fields of a pathfinding `Node` that vary during the search:
`g_cost` (`none` models `float('inf')`) and the parent pointer (a parent is
always the dictionary node of that position, so the object reference is
modelled by the position key).  The stored `h_cost` is set once to
`manhattan_distance(position, goal)` and never changed, so it is computed
from the key instead of stored. -/
structure NodeInfo where
  g : Option ℚ
  parent : Option Position
deriving DecidableEq, Repr

/-- The loop state of `Pathfinder.find_path`: `open_set` (each heap entry
is the dictionary node object of its position, so entries are modelled by
position keys), `closed_set`, and the `nodes` dictionary. -/
structure AState where
  openL : List Position
  closed : List Position
  nodes : List (Position × NodeInfo)
deriving DecidableEq, Repr

/-- The live `f_cost = g_cost + h_cost` of a heap entry (heap entries alias
the dictionary nodes, so the cost is read from the current `nodes` map).
The fallback 0 for a missing node or an infinite cost is never reached:
every pushed key holds a node with finite `g_cost`. -/
def fval (goal : Position) (nodes : List (Position × NodeInfo)) (p : Position) : ℚ :=
  match alookup nodes p with
  | some n => n.g.getD 0 + (mdist p goal : ℚ)
  | none => 0

/-- `heapq.heappop` on the aliased heap: returns an entry of minimal
current `f_cost` (the leftmost one) and the remaining entries. -/
def popMin (f : Position → ℚ) (l : List Position) : Option (Position × List Position) :=
  match l with
  | [] => none
  | x :: xs =>
    match popMin f xs with
    | none => some (x, [])
    | some (y, ys) => if f x ≤ f y then some (x, xs) else some (y, x :: ys)

/-- The neighbour-relaxation body of the `find_path` main loop: skip
blocked or closed keys; otherwise a missing node is created with
`g_cost = inf` (so the comparison always succeeds), and a strictly better
tentative cost updates `g_cost` and the parent and pushes the node. -/
def relaxNeighbor (pf : Pathfinder) (blocked : List Position) (gc : ℚ)
    (cur : Position) (st : AState) (nb : Position) : AState :=
  if nb ∈ blocked ∨ nb ∈ st.closed then st
  else
    let tg := gc + pf.getTerrainWeight nb
    match alookup st.nodes nb with
    | none =>
      { st with nodes := aset st.nodes nb ⟨some tg, some cur⟩, openL := st.openL ++ [nb] }
    | some n =>
      match n.g with
      | none =>
        { st with nodes := aset st.nodes nb ⟨some tg, some cur⟩, openL := st.openL ++ [nb] }
      | some gv =>
        if tg < gv then
          { st with nodes := aset st.nodes nb ⟨some tg, some cur⟩,
                    openL := st.openL ++ [nb] }
        else st

/-- `Pathfinder._reconstruct_path`: follow parent pointers, then reverse
(built here in start-to-node order directly).  The fuel bounds the chase;
`find_path` supplies more fuel than any parent chain is long. -/
def reconstructPath (nodes : List (Position × NodeInfo)) : ℕ → Position → List Position
  | 0, p => [p]
  | fuel + 1, p =>
    match alookup nodes p with
    | none => [p]
    | some n =>
      match n.parent with
      | none => [p]
      | some q => reconstructPath nodes fuel q ++ [p]

/-- The `while open_set` loop of `find_path`, fuel-based: pop a minimal
entry, skip already-closed keys, close the key, return the reconstruction
on reaching the goal, otherwise relax the neighbours.  The two `none`
fallbacks after the goal test are unreachable (a popped key always has a
node with finite `g_cost`). -/
def astarLoop (pf : Pathfinder) (goal : Position) (blocked : List Position) :
    ℕ → AState → Option (List Position)
  | 0, _ => none
  | fuel + 1, st =>
    match popMin (fval goal st.nodes) st.openL with
    | none => none
    | some (cur, rest) =>
      if cur ∈ st.closed then astarLoop pf goal blocked fuel { st with openL := rest }
      else if cur = goal then some (reconstructPath st.nodes st.nodes.length cur)
      else
        match alookup st.nodes cur with
        | none => none
        | some curNode =>
          match curNode.g with
          | none => none
          | some gc =>
            astarLoop pf goal blocked fuel
              ((pf.getNeighbors cur).foldl (relaxNeighbor pf blocked gc cur)
                ⟨rest, cur :: st.closed, st.nodes⟩)

/-- `Pathfinder.find_path`: bounds checks, blocked-goal check, then the A*
loop from the start node (`g = 0`, `h = manhattan(start, goal)`); the fuel
`5 * width * height + 2` dominates the loop's decreasing measure
`|open| + 5 * (cells - |closed|)`, so it is never exhausted. -/
def Pathfinder.findPath (pf : Pathfinder) (start goal : Position)
    (blocked : List Position) : Option (List Position) :=
  if ¬ (pf.isValidPosition start = true ∧ pf.isValidPosition goal = true) then none
  else if goal ∈ blocked then none
  else
    astarLoop pf goal blocked (5 * pf.gridWidth * pf.gridHeight + 2)
      ⟨[start], [], [(start, ⟨some 0, none⟩)]⟩

theorem popMin_of_cons (f : Position → ℚ) (x : Position) (xs : List Position) :
    ∃ y ys, popMin f (x :: xs) = some (y, ys) := by
  rw [popMin]
  rcases h : popMin f xs with _ | ⟨y, ys⟩
  · exact ⟨x, [], rfl⟩
  · simp only
    by_cases hle : f x ≤ f y
    · exact ⟨x, xs, by rw [if_pos hle]⟩
    · exact ⟨y, x :: ys, by rw [if_neg hle]⟩

theorem popMin_perm (f : Position → ℚ) :
    ∀ (l : List Position) (y : Position) (ys : List Position),
      popMin f l = some (y, ys) → (y :: ys).Perm l := by
  intro l
  induction l with
  | nil => intro y ys h; simp [popMin] at h
  | cons x xs ih =>
    intro y ys h
    rw [popMin] at h
    rcases hx : popMin f xs with _ | ⟨y₀, ys₀⟩
    · rw [hx] at h
      simp only at h
      injection h with h'
      injection h' with h1 h2
      subst h1
      subst h2
      have hnil : xs = [] := by
        rcases xs with _ | ⟨a, as⟩
        · rfl
        · obtain ⟨b, bs, hb⟩ := popMin_of_cons f a as
          rw [hb] at hx
          exact absurd hx (by simp)
      subst hnil
      exact List.Perm.refl _
    · rw [hx] at h
      simp only at h
      by_cases hle : f x ≤ f y₀
      · rw [if_pos hle] at h
        injection h with h'
        injection h' with h1 h2
        subst h1
        subst h2
        exact List.Perm.refl _
      · rw [if_neg hle] at h
        injection h with h'
        injection h' with h1 h2
        subst h1
        subst h2
        exact (List.Perm.swap x y₀ ys₀).trans ((ih y₀ ys₀ hx).cons x)

theorem popMin_min (f : Position → ℚ) :
    ∀ (l : List Position) (y : Position) (ys : List Position),
      popMin f l = some (y, ys) → ∀ z ∈ l, f y ≤ f z := by
  intro l
  induction l with
  | nil => intro y ys h; simp [popMin] at h
  | cons x xs ih =>
    intro y ys h z hz
    rw [popMin] at h
    rcases hx : popMin f xs with _ | ⟨y₀, ys₀⟩
    · rw [hx] at h
      simp only at h
      injection h with h'
      injection h' with h1 h2
      subst h1
      have hnil : xs = [] := by
        rcases xs with _ | ⟨a, as⟩
        · rfl
        · obtain ⟨b, bs, hb⟩ := popMin_of_cons f a as
          rw [hb] at hx
          exact absurd hx (by simp)
      subst hnil
      rcases List.mem_singleton.mp hz with rfl
      exact le_refl _
    · rw [hx] at h
      simp only at h
      by_cases hle : f x ≤ f y₀
      · rw [if_pos hle] at h
        injection h with h'
        injection h' with h1 h2
        subst h1
        rcases List.mem_cons.mp hz with rfl | hz'
        · exact le_refl _
        · exact hle.trans (ih y₀ ys₀ hx z hz')
      · rw [if_neg hle] at h
        injection h with h'
        injection h' with h1 h2
        subst h1
        rcases List.mem_cons.mp hz with rfl | hz'
        · exact (not_le.mp hle).le
        · exact ih y₀ ys₀ hx z hz'

/-- In-bounds predicate corresponding to `is_valid_position`. -/
def validPos (pf : Pathfinder) (p : Position) : Prop :=
  p.x < pf.gridWidth ∧ p.y < pf.gridHeight

theorem isValidPosition_iff (pf : Pathfinder) (p : Position) :
    pf.isValidPosition p = true ↔ validPos pf p := by
  rw [Pathfinder.isValidPosition, decide_eq_true_eq]
  exact Iff.rfl

theorem mem_getNeighbors (pf : Pathfinder) (p k : Position) :
    k ∈ pf.getNeighbors p ↔ validPos pf k ∧ mdist p k = 1 := by
  rcases p with ⟨px, py⟩
  rcases k with ⟨kx, ky⟩
  simp only [Pathfinder.getNeighbors, List.mem_filterMap, List.mem_cons,
    List.not_mem_nil, or_false, validPos]
  constructor
  · rintro ⟨q, hq, hf⟩
    rcases hq with rfl | rfl | rfl | rfl <;>
    · simp only at hf
      split at hf
      · rename_i hcond
        injection hf with hf'
        injection hf' with h1 h2
        simp only [mdist]
        omega
      · exact absurd hf (by simp)
  · rintro ⟨⟨hkx, hky⟩, hd⟩
    simp only [mdist] at hd
    have hcases : (kx = px ∧ ky = py + 1) ∨ (kx = px + 1 ∧ ky = py) ∨
        (kx = px ∧ ky + 1 = py) ∨ (kx + 1 = px ∧ ky = py) := by omega
    rcases hcases with ⟨h1, h2⟩ | ⟨h1, h2⟩ | ⟨h1, h2⟩ | ⟨h1, h2⟩
    · refine ⟨((px : ℤ), (py : ℤ) + 1), Or.inl rfl, ?_⟩
      simp only
      rw [if_pos (by omega)]
      simp only [Option.some.injEq, Position.mk.injEq]
      omega
    · refine ⟨((px : ℤ) + 1, (py : ℤ)), Or.inr (Or.inl rfl), ?_⟩
      simp only
      rw [if_pos (by omega)]
      simp only [Option.some.injEq, Position.mk.injEq]
      omega
    · refine ⟨((px : ℤ), (py : ℤ) - 1), Or.inr (Or.inr (Or.inl rfl)), ?_⟩
      simp only
      rw [if_pos (by omega)]
      simp only [Option.some.injEq, Position.mk.injEq]
      omega
    · refine ⟨((px : ℤ) - 1, (py : ℤ)), Or.inr (Or.inr (Or.inr rfl)), ?_⟩
      simp only
      rw [if_pos (by omega)]
      simp only [Option.some.injEq, Position.mk.injEq]
      omega

theorem getNeighbors_length_le (pf : Pathfinder) (p : Position) :
    (pf.getNeighbors p).length ≤ 4 := by
  have h := List.length_filterMap_le
    (fun (q : ℤ × ℤ) =>
      if 0 ≤ q.1 ∧ q.1 < (pf.gridWidth : ℤ) ∧ 0 ≤ q.2 ∧ q.2 < (pf.gridHeight : ℤ) then
        some (⟨q.1.toNat, q.2.toNat⟩ : Position)
      else none)
    [((p.x : ℤ), (p.y : ℤ) + 1), ((p.x : ℤ) + 1, (p.y : ℤ)),
     ((p.x : ℤ), (p.y : ℤ) - 1), ((p.x : ℤ) - 1, (p.y : ℤ))]
  simpa [Pathfinder.getNeighbors] using h

/-- One grid step from `p` toward `cur` (used only to exhibit geodesics in
the optimality argument). -/
def stepToward (cur p : Position) : Position :=
  if p.x < cur.x then ⟨p.x + 1, p.y⟩
  else if cur.x < p.x then ⟨p.x - 1, p.y⟩
  else if p.y < cur.y then ⟨p.x, p.y + 1⟩
  else ⟨p.x, p.y - 1⟩

theorem stepToward_spec (cur p : Position) (m : ℕ) (h : mdist p cur = m + 1) :
    mdist p (stepToward cur p) = 1 ∧ mdist (stepToward cur p) cur = m := by
  rcases cur with ⟨cx, cy⟩
  rcases p with ⟨px, py⟩
  simp only [stepToward]
  split_ifs <;> simp only [mdist] at h ⊢ <;> omega

theorem stepToward_valid (pf : Pathfinder) (cur p : Position)
    (hp : validPos pf p) (hc : validPos pf cur) : validPos pf (stepToward cur p) := by
  rcases cur with ⟨cx, cy⟩
  rcases p with ⟨px, py⟩
  simp only [validPos] at hp hc
  simp only [stepToward]
  split_ifs <;> simp only [validPos] <;> omega

theorem exists_frontier_aux (pf : Pathfinder) (start cur : Position) (C : List Position)
    (hcur : cur ∉ C) (hvc : validPos pf cur) :
    ∀ m p, mdist p cur = m → p ∈ C → validPos pf p →
      mdist start p + mdist p cur = mdist start cur →
      ∃ c k, c ∈ C ∧ validPos pf k ∧ mdist c k = 1 ∧ k ∉ C ∧
        mdist start k + mdist k cur = mdist start cur ∧
        mdist start k = mdist start c + 1 := by
  intro m
  induction m with
  | zero =>
    intro p h0 hpC _ _
    have hpc := mdist_eq_zero h0
    subst hpc
    exact absurd hpC hcur
  | succ m ih =>
    intro p hm hpC hvp hgeo
    obtain ⟨hstep1, hstep2⟩ := stepToward_spec cur p m hm
    have hvk := stepToward_valid pf cur p hvp hvc
    have t1 := mdist_triangle start p (stepToward cur p)
    have t2 := mdist_triangle start (stepToward cur p) cur
    have hgeo' : mdist start (stepToward cur p) + mdist (stepToward cur p) cur =
        mdist start cur := by omega
    have hD' : mdist start (stepToward cur p) = mdist start p + 1 := by omega
    by_cases hkC : stepToward cur p ∈ C
    · exact ih (stepToward cur p) hstep2 hkC hvk hgeo'
    · exact ⟨p, stepToward cur p, hpC, hvk, hstep1, hkC, hgeo', hD'⟩

/-- The A* loop invariant, minus the frontier property (which is restored
only after a popped node's whole neighbour list has been relaxed). -/
structure AInv0 (pf : Pathfinder) (start : Position) (st : AState) : Prop where
  closed_g : ∀ c ∈ st.closed, ∃ n, alookup st.nodes c = some n ∧
    n.g = some ((mdist start c : ℕ) : ℚ)
  nodes_g : ∀ p n, alookup st.nodes p = some n →
    validPos pf p ∧ ∃ k : ℕ, n.g = some ((k : ℕ) : ℚ) ∧ mdist start p ≤ k
  parent_rel : ∀ p n, alookup st.nodes p = some n →
    (n.parent = none → p = start) ∧
    (∀ q, n.parent = some q → q ∈ st.closed ∧ mdist q p = 1 ∧
      ∃ nq, alookup st.nodes q = some nq ∧ ∀ gp, n.g = some gp → nq.g = some (gp - 1))
  start_node : alookup st.nodes start = some ⟨some 0, none⟩
  start_mem : start ∈ st.closed ∨ start ∈ st.openL
  open_noded : ∀ p ∈ st.openL, ∃ n, alookup st.nodes p = some n
  noded_mem : ∀ p n, alookup st.nodes p = some n → p ∈ st.closed ∨ p ∈ st.openL
  closed_nodup : st.closed.Nodup

/-- The frontier property: every non-closed in-bounds neighbour of a closed
node holds a node with `g` at most the closed node's `g + 1` and is on the
open heap — except, during relaxation of the node `cur`, for the neighbours
of `cur` still waiting in `rem`. -/
def FrontInv (pf : Pathfinder) (start cur : Position) (rem : List Position)
    (st : AState) : Prop :=
  ∀ c ∈ st.closed, ∀ k, validPos pf k → mdist c k = 1 → k ∉ st.closed →
    (∃ n gq, alookup st.nodes k = some n ∧ n.g = some gq ∧
      gq ≤ (mdist start c : ℚ) + 1 ∧ k ∈ st.openL) ∨ (c = cur ∧ k ∈ rem)

/-- The full A* loop invariant. -/
structure AInv (pf : Pathfinder) (start : Position) (st : AState)
    extends AInv0 pf start st : Prop where
  frontier : ∀ c ∈ st.closed, ∀ k, validPos pf k → mdist c k = 1 → k ∉ st.closed →
    ∃ n gq, alookup st.nodes k = some n ∧ n.g = some gq ∧
      gq ≤ (mdist start c : ℚ) + 1 ∧ k ∈ st.openL

theorem pop_g_eq (pf : Pathfinder) (start goal : Position) (st : AState)
    (hinv : AInv pf start st) (cur : Position) (rest : List Position)
    (hpop : popMin (fval goal st.nodes) st.openL = some (cur, rest))
    (hcur : cur ∉ st.closed) :
    ∃ n, alookup st.nodes cur = some n ∧
      n.g = some ((mdist start cur : ℕ) : ℚ) := by
  have hcuro : cur ∈ st.openL :=
    (popMin_perm _ _ _ _ hpop).subset (List.mem_cons_self _ _)
  obtain ⟨n, hn⟩ := hinv.open_noded cur hcuro
  obtain ⟨hvcur, kc, hkg, hkge⟩ := hinv.nodes_g cur n hn
  refine ⟨n, hn, ?_⟩
  rw [hkg]
  suffices hsuf : kc = mdist start cur by rw [hsuf]
  by_contra hne
  have hklt : mdist start cur < kc := lt_of_le_of_ne hkge (fun hh => hne hh.symm)
  have hfc : fval goal st.nodes cur = (kc : ℚ) + (mdist cur goal : ℚ) := by
    simp only [fval, hn, hkg, Option.getD_some]
  by_cases hsc : start ∈ st.closed
  · obtain ⟨c, k, hcC, hvk, hck, hkC, hkgeo, hkD⟩ :=
      exists_frontier_aux pf start cur st.closed hcur hvcur (mdist start cur) start
        rfl hsc ((hinv.nodes_g start _ hinv.start_node).1)
        (by rw [mdist_self, Nat.zero_add])
    obtain ⟨n', gq, hn', hg', hle', hko'⟩ := hinv.frontier c hcC k hvk hck hkC
    have hmin := popMin_min _ _ _ _ hpop k hko'
    have hfk : fval goal st.nodes k = gq + (mdist k goal : ℚ) := by
      simp only [fval, hn', hg', Option.getD_some]
    rw [hfc, hfk] at hmin
    have htri : (mdist k goal : ℚ) ≤ (mdist k cur : ℚ) + (mdist cur goal : ℚ) := by
      exact_mod_cast mdist_triangle k cur goal
    have hgeoQ : (mdist start k : ℚ) + (mdist k cur : ℚ) = (mdist start cur : ℚ) := by
      exact_mod_cast hkgeo
    have hDkQ : (mdist start k : ℚ) = (mdist start c : ℚ) + 1 := by exact_mod_cast hkD
    have hltQ : ((mdist start cur : ℕ) : ℚ) < (kc : ℚ) := by exact_mod_cast hklt
    linarith
  · have hso : start ∈ st.openL := hinv.start_mem.resolve_left hsc
    have hmin := popMin_min _ _ _ _ hpop start hso
    have hfs : fval goal st.nodes start = 0 + (mdist start goal : ℚ) := by
      simp only [fval, hinv.start_node, Option.getD_some]
    rw [hfc, hfs] at hmin
    have htri : (mdist start goal : ℚ) ≤ (mdist start cur : ℚ) + (mdist cur goal : ℚ) := by
      exact_mod_cast mdist_triangle start cur goal
    have hltQ : ((mdist start cur : ℕ) : ℚ) < (kc : ℚ) := by exact_mod_cast hklt
    linarith

theorem relaxUpdate_inv (pf : Pathfinder) (start cur nb : Position) (st : AState)
    (rem : List Position) (h0 : AInv0 pf start st)
    (hf : FrontInv pf start cur (nb :: rem) st)
    (hcurc : cur ∈ st.closed) (hvnb : validPos pf nb) (hdnb : mdist cur nb = 1)
    (hnbc : nb ∉ st.closed) (hnbs : nb ≠ start)
    (hbound : ∀ c ∈ st.closed, mdist c nb = 1 →
      ((mdist start cur : ℕ) : ℚ) + 1 ≤ ((mdist start c : ℕ) : ℚ) + 1) :
    AInv0 pf start ⟨st.openL ++ [nb], st.closed,
        aset st.nodes nb ⟨some (((mdist start cur : ℕ) : ℚ) + 1), some cur⟩⟩ ∧
    FrontInv pf start cur rem ⟨st.openL ++ [nb], st.closed,
        aset st.nodes nb ⟨some (((mdist start cur : ℕ) : ℚ) + 1), some cur⟩⟩ := by
  have hcn : cur ≠ nb := by
    intro hh
    rw [hh, mdist_self] at hdnb
    exact absurd hdnb (by decide)
  obtain ⟨ncur, hncur, hncurg⟩ := h0.closed_g cur hcurc
  constructor
  · refine ⟨?_, ?_, ?_, ?_, ?_, ?_, ?_, h0.closed_nodup⟩
    · intro c hc
      have hcnb : c ≠ nb := fun hh => hnbc (hh ▸ hc)
      obtain ⟨n', hn', hg'⟩ := h0.closed_g c hc
      refine ⟨n', ?_, hg'⟩
      rw [alookup_aset_ne _ _ _ _ (fun hh => hcnb hh.symm)]
      exact hn'
    · intro p n hp
      by_cases hpnb : p = nb
      · subst hpnb
        rw [alookup_aset] at hp
        injection hp with hpe
        subst hpe
        refine ⟨hvnb, mdist start cur + 1, by push_cast; rfl, ?_⟩
        have := mdist_triangle start cur p
        omega
      · rw [alookup_aset_ne _ _ _ _ (fun hh => hpnb hh.symm)] at hp
        exact h0.nodes_g p n hp
    · intro p n hp
      by_cases hpnb : p = nb
      · subst hpnb
        rw [alookup_aset] at hp
        injection hp with hpe
        subst hpe
        constructor
        · intro hnone
          simp at hnone
        · intro q hq
          simp only at hq
          injection hq with hq'
          subst hq'
          refine ⟨hcurc, hdnb, ncur, ?_, ?_⟩
          · rw [alookup_aset_ne _ _ _ _ (fun hh => hcn hh.symm)]
            exact hncur
          · intro gp hgp
            simp only at hgp
            injection hgp with hgp'
            rw [← hgp', hncurg]
            congr 1
            ring
      · rw [alookup_aset_ne _ _ _ _ (fun hh => hpnb hh.symm)] at hp
        obtain ⟨h1, h2⟩ := h0.parent_rel p n hp
        refine ⟨h1, ?_⟩
        intro q hq
        obtain ⟨hqc, hqd, nq, hnq, hrel⟩ := h2 q hq
        have hqnb : q ≠ nb := fun hh => hnbc (hh ▸ hqc)
        refine ⟨hqc, hqd, nq, ?_, hrel⟩
        rw [alookup_aset_ne _ _ _ _ (fun hh => hqnb hh.symm)]
        exact hnq
    · rw [alookup_aset_ne _ _ _ _ hnbs]
      exact h0.start_node
    · rcases h0.start_mem with hs | hs
      · exact Or.inl hs
      · exact Or.inr (List.mem_append.mpr (Or.inl hs))
    · intro p hp
      by_cases hpnb : p = nb
      · subst hpnb
        exact ⟨_, alookup_aset _ _ _⟩
      · rcases List.mem_append.mp hp with hpo | hpn
        · obtain ⟨n', hn'⟩ := h0.open_noded p hpo
          refine ⟨n', ?_⟩
          rw [alookup_aset_ne _ _ _ _ (fun hh => hpnb hh.symm)]
          exact hn'
        · exact absurd (List.mem_singleton.mp hpn) hpnb
    · intro p n hp
      by_cases hpnb : p = nb
      · subst hpnb
        exact Or.inr (List.mem_append.mpr (Or.inr (List.mem_singleton.mpr rfl)))
      · rw [alookup_aset_ne _ _ _ _ (fun hh => hpnb hh.symm)] at hp
        rcases h0.noded_mem p n hp with hc | ho
        · exact Or.inl hc
        · exact Or.inr (List.mem_append.mpr (Or.inl ho))
  · intro c hc k hvk hck hkc
    by_cases hknb : k = nb
    · subst hknb
      exact Or.inl ⟨_, _, alookup_aset _ _ _, rfl, hbound c hc hck,
        List.mem_append.mpr (Or.inr (List.mem_singleton.mpr rfl))⟩
    · rcases hf c hc k hvk hck hkc with ⟨n', gq, hn', hg', hle', hko'⟩ | ⟨hceq, hkm⟩
      · refine Or.inl ⟨n', gq, ?_, hg', hle', List.mem_append.mpr (Or.inl hko')⟩
        rw [alookup_aset_ne _ _ _ _ (fun hh => hknb hh.symm)]
        exact hn'
      · rcases List.mem_cons.mp hkm with rfl | hkr
        · exact absurd rfl hknb
        · exact Or.inr ⟨hceq, hkr⟩

theorem relaxNeighbor_inv (pf : Pathfinder) (start cur nb : Position)
    (hterr : ∀ p, pf.getTerrainWeight p = 1)
    (st : AState) (rem : List Position)
    (h0 : AInv0 pf start st)
    (hf : FrontInv pf start cur (nb :: rem) st)
    (hcurc : cur ∈ st.closed)
    (hvnb : validPos pf nb) (hdnb : mdist cur nb = 1) :
    AInv0 pf start (relaxNeighbor pf [] ((mdist start cur : ℕ) : ℚ) cur st nb) ∧
    FrontInv pf start cur rem
      (relaxNeighbor pf [] ((mdist start cur : ℕ) : ℚ) cur st nb) ∧
    (relaxNeighbor pf [] ((mdist start cur : ℕ) : ℚ) cur st nb).closed = st.closed ∧
    (relaxNeighbor pf [] ((mdist start cur : ℕ) : ℚ) cur st nb).openL.length ≤
      st.openL.length + 1 := by
  rw [relaxNeighbor]
  by_cases hnbc : nb ∈ st.closed
  · rw [if_pos (Or.inr hnbc)]
    refine ⟨h0, ?_, rfl, by omega⟩
    intro c hc k hvk hck hkc
    rcases hf c hc k hvk hck hkc with hL | ⟨hceq, hkmem⟩
    · exact Or.inl hL
    · rcases List.mem_cons.mp hkmem with rfl | hkr
      · exact absurd hnbc hkc
      · exact Or.inr ⟨hceq, hkr⟩
  · rw [if_neg (by simp [hnbc])]
    rw [hterr nb]
    rcases hnb : alookup st.nodes nb with _ | n
    · simp only
      have hnbs : nb ≠ start := by
        intro hh
        rw [hh, h0.start_node] at hnb
        exact absurd hnb (by simp)
      have hbound : ∀ c ∈ st.closed, mdist c nb = 1 →
          ((mdist start cur : ℕ) : ℚ) + 1 ≤ ((mdist start c : ℕ) : ℚ) + 1 := by
        intro c hc hcknb
        rcases hf c hc nb hvnb hcknb hnbc with ⟨n', gq, hn', _, _, _⟩ | ⟨hceq, _⟩
        · rw [hnb] at hn'
          exact absurd hn' (by simp)
        · rw [hceq]
      obtain ⟨hA, hF⟩ := relaxUpdate_inv pf start cur nb st rem h0 hf hcurc hvnb hdnb
        hnbc hnbs hbound
      exact ⟨hA, hF, by simp, by simp⟩
    · simp only
      rcases hng : n.g with _ | gv
      · obtain ⟨_, kk, hkk, _⟩ := h0.nodes_g nb n hnb
        rw [hng] at hkk
        exact absurd hkk (by simp)
      · simp only
        by_cases hlt : ((mdist start cur : ℕ) : ℚ) + 1 < gv
        · rw [if_pos hlt]
          have hnbs : nb ≠ start := by
            intro hh
            rw [hh, h0.start_node] at hnb
            injection hnb with hne
            rw [← hne] at hng
            simp only at hng
            injection hng with hng'
            rw [← hng'] at hlt
            have hc0 : (0 : ℚ) ≤ ((mdist start cur : ℕ) : ℚ) := Nat.cast_nonneg _
            linarith
          have hbound : ∀ c ∈ st.closed, mdist c nb = 1 →
              ((mdist start cur : ℕ) : ℚ) + 1 ≤ ((mdist start c : ℕ) : ℚ) + 1 := by
            intro c hc hcknb
            rcases hf c hc nb hvnb hcknb hnbc with ⟨n', gq, hn', hg', hle', _⟩ |
              ⟨hceq, _⟩
            · rw [hnb] at hn'
              injection hn' with hne
              subst hne
              rw [hng] at hg'
              injection hg' with hge
              subst hge
              linarith
            · rw [hceq]
          obtain ⟨hA, hF⟩ := relaxUpdate_inv pf start cur nb st rem h0 hf hcurc hvnb
            hdnb hnbc hnbs hbound
          exact ⟨hA, hF, by simp, by simp⟩
        · rw [if_neg hlt]
          refine ⟨h0, ?_, rfl, by omega⟩
          intro c hc k hvk hck hkc
          by_cases hknb : k = nb
          · subst hknb
            have hbnd : gv ≤ ((mdist start c : ℕ) : ℚ) + 1 := by
              rcases hf c hc k hvk hck hkc with ⟨n', gq, hn', hg', hle', _⟩ |
                ⟨hceq, _⟩
              · rw [hnb] at hn'
                injection hn' with hne
                subst hne
                rw [hng] at hg'
                injection hg' with hge
                subst hge
                exact hle'
              · rw [hceq]
                linarith [not_lt.mp hlt]
            have hko : k ∈ st.openL := by
              rcases h0.noded_mem k n hnb with hc' | ho'
              · exact absurd hc' hkc
              · exact ho'
            exact Or.inl ⟨n, gv, hnb, hng, hbnd, hko⟩
          · rcases hf c hc k hvk hck hkc with hL | ⟨hceq, hkm⟩
            · exact Or.inl hL
            · rcases List.mem_cons.mp hkm with rfl | hkr
              · exact absurd rfl hknb
              · exact Or.inr ⟨hceq, hkr⟩

theorem relaxFold_inv (pf : Pathfinder) (start cur : Position)
    (hterr : ∀ p, pf.getTerrainWeight p = 1) :
    ∀ (l : List Position) (st : AState),
      (∀ nb ∈ l, validPos pf nb ∧ mdist cur nb = 1) →
      AInv0 pf start st → FrontInv pf start cur l st → cur ∈ st.closed →
      AInv0 pf start
        (l.foldl (relaxNeighbor pf [] ((mdist start cur : ℕ) : ℚ) cur) st) ∧
      FrontInv pf start cur []
        (l.foldl (relaxNeighbor pf [] ((mdist start cur : ℕ) : ℚ) cur) st) ∧
      (l.foldl (relaxNeighbor pf [] ((mdist start cur : ℕ) : ℚ) cur) st).closed =
        st.closed ∧
      (l.foldl (relaxNeighbor pf [] ((mdist start cur : ℕ) : ℚ) cur) st).openL.length ≤
        st.openL.length + l.length := by
  intro l
  induction l with
  | nil =>
    intro st _ h0 hf _
    exact ⟨h0, hf, rfl, by simp⟩
  | cons nb t ih =>
    intro st hall h0 hf hc
    rw [List.foldl_cons]
    obtain ⟨hvnb, hdnb⟩ := hall nb (List.mem_cons_self _ _)
    obtain ⟨hA, hF, hclosed, hlen⟩ :=
      relaxNeighbor_inv pf start cur nb hterr st t h0 hf hc hvnb hdnb
    have hc' : cur ∈ (relaxNeighbor pf [] ((mdist start cur : ℕ) : ℚ) cur st nb).closed :=
      hclosed ▸ hc
    obtain ⟨hA2, hF2, hcl2, hlen2⟩ :=
      ih _ (fun x hx => hall x (List.mem_cons_of_mem _ hx)) hA hF hc'
    refine ⟨hA2, hF2, by rw [hcl2, hclosed], ?_⟩
    rw [List.length_cons]
    omega

theorem valid_nodup_length_le (pf : Pathfinder) (C : List Position)
    (hnd : C.Nodup) (hval : ∀ c ∈ C, validPos pf c) :
    C.length ≤ pf.gridWidth * pf.gridHeight := by
  have hinj : Function.Injective (fun p : Position => (p.x, p.y)) := by
    intro a b hab
    rcases a with ⟨ax, ay⟩
    rcases b with ⟨bx, bb⟩
    simp only [Prod.mk.injEq] at hab
    obtain ⟨h1, h2⟩ := hab
    subst h1
    subst h2
    rfl
  have hmapnd : (C.map (fun p : Position => (p.x, p.y))).Nodup := hnd.map hinj
  have hsub : (C.map fun p : Position => (p.x, p.y)).toFinset ⊆
      Finset.range pf.gridWidth ×ˢ Finset.range pf.gridHeight := by
    intro q hq
    rw [List.mem_toFinset] at hq
    obtain ⟨p, hp, rfl⟩ := List.mem_map.mp hq
    have hv := hval p hp
    rw [Finset.mem_product, Finset.mem_range, Finset.mem_range]
    exact ⟨hv.1, hv.2⟩
  have hcard := Finset.card_le_card hsub
  rw [List.toFinset_card_of_nodup hmapnd, List.length_map,
    Finset.card_product, Finset.card_range, Finset.card_range] at hcard
  exact hcard

theorem reconstructPath_spec (nodes : List (Position × NodeInfo)) (start : Position)
    (hpar : ∀ p n, alookup nodes p = some n →
      (n.parent = none → p = start) ∧
      (∀ q, n.parent = some q → mdist q p = 1 ∧
        ∃ nq, alookup nodes q = some nq ∧ ∀ gp, n.g = some gp → nq.g = some (gp - 1)))
    (hgnat : ∀ p n, alookup nodes p = some n → ∃ k : ℕ, n.g = some ((k : ℕ) : ℚ))
    (hstart : alookup nodes start = some ⟨some 0, none⟩) :
    ∀ (k fuel : ℕ), k ≤ fuel → ∀ (p : Position) (n : NodeInfo),
      alookup nodes p = some n → n.g = some ((k : ℕ) : ℚ) →
      (reconstructPath nodes fuel p).length = k + 1 ∧
      (reconstructPath nodes fuel p).head? = some start ∧
      (reconstructPath nodes fuel p).getLast? = some p ∧
      List.Chain' (fun a b => mdist a b = 1) (reconstructPath nodes fuel p) ∧
      (reconstructPath nodes fuel p).Nodup ∧
      ∀ x ∈ reconstructPath nodes fuel p, ∃ nx, alookup nodes x = some nx ∧
        ∃ kx : ℕ, nx.g = some ((kx : ℕ) : ℚ) ∧ kx ≤ k := by
  intro k
  induction k with
  | zero =>
    intro fuel _ p n hp hg
    rcases hpn : n.parent with _ | q
    · have hps := (hpar p n hp).1 hpn
      subst hps
      have hred : reconstructPath nodes fuel p = [p] := by
        rcases fuel with _ | f'
        · rfl
        · simp only [reconstructPath, hp, hpn]
      rw [hred]
      refine ⟨rfl, rfl, rfl, List.chain'_singleton _, by simp, ?_⟩
      intro x hx
      rw [List.mem_singleton] at hx
      subst hx
      exact ⟨n, hp, 0, hg, le_refl _⟩
    · obtain ⟨_, nq, hnq, hrel⟩ := (hpar p n hp).2 q hpn
      have hq0 := hrel _ hg
      obtain ⟨kq, hkq⟩ := hgnat q nq hnq
      rw [hq0] at hkq
      injection hkq with hkq'
      have hge : (0 : ℚ) ≤ (kq : ℚ) := Nat.cast_nonneg _
      rw [← hkq'] at hge
      norm_num at hge
  | succ k ih =>
    intro fuel hfl p n hp hg
    rcases fuel with _ | f'
    · exact absurd hfl (by omega)
    · have hf' : k ≤ f' := by omega
      rcases hpn : n.parent with _ | q
      · have hps := (hpar p n hp).1 hpn
        subst hps
        rw [hstart] at hp
        injection hp with hne
        rw [← hne] at hg
        simp only at hg
        injection hg with hg'
        have : (0 : ℕ) = k + 1 := by exact_mod_cast hg'
        omega
      · obtain ⟨hqd, nq, hnq, hrel⟩ := (hpar p n hp).2 q hpn
        have hqg0 := hrel _ hg
        have hqg : nq.g = some ((k : ℕ) : ℚ) := by
          rw [hqg0]
          congr 1
          push_cast
          ring
        obtain ⟨hlen, hhead, hlast, hchain, hnodup, hmem⟩ := ih f' hf' q nq hnq hqg
        have hreq : reconstructPath nodes (f' + 1) p =
            reconstructPath nodes f' q ++ [p] := by
          simp only [reconstructPath, hp, hpn]
        rw [hreq]
        refine ⟨by simp [hlen], ?_, List.getLast?_concat _, ?_, ?_, ?_⟩
        · rcases hL : reconstructPath nodes f' q with _ | ⟨a, as⟩
          · rw [hL] at hlen
            simp at hlen
          · rw [hL] at hhead
            rw [List.cons_append, List.head?_cons]
            rw [List.head?_cons] at hhead
            exact hhead
        · rw [List.chain'_append]
          refine ⟨hchain, List.chain'_singleton _, ?_⟩
          intro x hx y hy
          rw [hlast] at hx
          rw [Option.mem_def] at hx
          injection hx with hx'
          rw [List.head?_cons, Option.mem_def] at hy
          injection hy with hy'
          rw [← hx', ← hy']
          exact hqd
        · refine List.nodup_append.mpr ⟨hnodup, by simp, ?_⟩
          intro a ha hap
          rw [List.mem_singleton] at hap
          subst hap
          obtain ⟨na, hna, ka, hka, hkale⟩ := hmem a ha
          rw [hp] at hna
          injection hna with hna'
          rw [← hna'] at hka
          rw [hg] at hka
          injection hka with hka'
          have : k + 1 = ka := by exact_mod_cast hka'
          omega
        · intro x hx
          rcases List.mem_append.mp hx with hxl | hxp
          · obtain ⟨nx, hnx, kx, hkx, hkxle⟩ := hmem x hxl
            exact ⟨nx, hnx, kx, hkx, by omega⟩
          · rw [List.mem_singleton] at hxp
            subst hxp
            exact ⟨n, hp, k + 1, hg, le_refl _⟩

theorem reconKeys_count (nodes : List (Position × NodeInfo)) (start : Position)
    (hpar : ∀ p n, alookup nodes p = some n →
      (n.parent = none → p = start) ∧
      (∀ q, n.parent = some q → mdist q p = 1 ∧
        ∃ nq, alookup nodes q = some nq ∧ ∀ gp, n.g = some gp → nq.g = some (gp - 1)))
    (hgnat : ∀ p n, alookup nodes p = some n → ∃ k : ℕ, n.g = some ((k : ℕ) : ℚ))
    (hstart : alookup nodes start = some ⟨some 0, none⟩)
    (k : ℕ) (p : Position) (n : NodeInfo)
    (hp : alookup nodes p = some n) (hg : n.g = some ((k : ℕ) : ℚ)) :
    k + 1 ≤ nodes.length := by
  obtain ⟨hlen, _, _, _, hnodup, hmem⟩ :=
    reconstructPath_spec nodes start hpar hgnat hstart k k (le_refl k) p n hp hg
  have hsub : (reconstructPath nodes k p) ⊆ nodes.map Prod.fst := by
    intro x hx
    obtain ⟨nx, hnx, _⟩ := hmem x hx
    exact List.mem_map.mpr ⟨(x, nx), alookup_mem hnx, rfl⟩
  have hle := (List.subperm_of_subset hnodup hsub).length_le
  rw [hlen, List.length_map] at hle
  exact hle

theorem astarLoop_success (pf : Pathfinder) (start goal : Position)
    (hterr : ∀ p, pf.getTerrainWeight p = 1) (hvg : validPos pf goal) :
    ∀ (fuel : ℕ) (st : AState), AInv pf start st → goal ∉ st.closed →
      st.openL.length + 5 * (pf.gridWidth * pf.gridHeight - st.closed.length) < fuel →
      ∃ path, astarLoop pf goal [] fuel st = some path ∧
        path.length = mdist start goal + 1 ∧
        path.head? = some start ∧
        path.getLast? = some goal ∧
        List.Chain' (fun a b => mdist a b = 1) path := by
  intro fuel
  induction fuel with
  | zero =>
    intro st _ _ hm
    exact absurd hm (by omega)
  | succ fuel ih =>
    intro st hinv hgc hm
    rcases hop : st.openL with _ | ⟨x, xs⟩
    · exfalso
      rcases hinv.start_mem with hsc | hso
      · obtain ⟨c, k, hcC, hvk, hck, hkC, _, _⟩ :=
          exists_frontier_aux pf start goal st.closed hgc hvg (mdist start goal) start
            rfl hsc (hinv.nodes_g start _ hinv.start_node).1
            (by rw [mdist_self, Nat.zero_add])
        obtain ⟨_, _, _, _, _, hko⟩ := hinv.frontier c hcC k hvk hck hkC
        rw [hop] at hko
        exact absurd hko (List.not_mem_nil _)
      · rw [hop] at hso
        exact absurd hso (List.not_mem_nil _)
    · obtain ⟨cur, rest, hpop⟩ := popMin_of_cons (fval goal st.nodes) x xs
      have hpop' : popMin (fval goal st.nodes) st.openL = some (cur, rest) := by
        rw [hop]
        exact hpop
      have hperm : (cur :: rest).Perm st.openL := popMin_perm _ _ _ _ hpop'
      have hlenr : rest.length + 1 = st.openL.length := by
        have hx := hperm.length_eq
        rw [List.length_cons] at hx
        exact hx
      simp only [astarLoop, hpop']
      by_cases hcc : cur ∈ st.closed
      · rw [if_pos hcc]
        apply ih
        · refine ⟨⟨hinv.closed_g, hinv.nodes_g, hinv.parent_rel, hinv.start_node,
            ?_, ?_, ?_, hinv.closed_nodup⟩, ?_⟩
          · rcases hinv.start_mem with hs | hs
            · exact Or.inl hs
            · rcases List.mem_cons.mp ((hperm.mem_iff).mpr hs) with rfl | hs'
              · exact Or.inl hcc
              · exact Or.inr hs'
          · intro p hp
            exact hinv.open_noded p ((hperm.mem_iff).mp (List.mem_cons_of_mem _ hp))
          · intro p n hp
            rcases hinv.noded_mem p n hp with hc | ho
            · exact Or.inl hc
            · rcases List.mem_cons.mp ((hperm.mem_iff).mpr ho) with rfl | ho'
              · exact Or.inl hcc
              · exact Or.inr ho'
          · intro c hc k hvk hck hkc
            obtain ⟨n', gq, hn', hg', hle', hko'⟩ := hinv.frontier c hc k hvk hck hkc
            refine ⟨n', gq, hn', hg', hle', ?_⟩
            rcases List.mem_cons.mp ((hperm.mem_iff).mpr hko') with rfl | h
            · exact absurd hcc hkc
            · exact h
        · exact hgc
        · simp only
          omega
      · rw [if_neg hcc]
        obtain ⟨ncur, hncur, hncurg⟩ := pop_g_eq pf start goal st hinv cur rest hpop' hcc
        have hvcur : validPos pf cur := (hinv.nodes_g cur ncur hncur).1
        by_cases hcg : cur = goal
        · rw [if_pos hcg]
          subst hcg
          have hpar' : ∀ p n, alookup st.nodes p = some n →
              (n.parent = none → p = start) ∧
              (∀ q, n.parent = some q → mdist q p = 1 ∧
                ∃ nq, alookup st.nodes q = some nq ∧
                  ∀ gp, n.g = some gp → nq.g = some (gp - 1)) :=
            fun p n hp => ⟨(hinv.parent_rel p n hp).1,
              fun q hq => ((hinv.parent_rel p n hp).2 q hq).2⟩
          have hgnat' : ∀ p n, alookup st.nodes p = some n →
              ∃ k : ℕ, n.g = some ((k : ℕ) : ℚ) := by
            intro p n hp
            obtain ⟨_, k, hk, _⟩ := hinv.nodes_g p n hp
            exact ⟨k, hk⟩
          have hcount := reconKeys_count st.nodes start hpar' hgnat' hinv.start_node
            (mdist start cur) cur ncur hncur hncurg
          obtain ⟨hlen, hhead, hlast, hchain, _, _⟩ :=
            reconstructPath_spec st.nodes start hpar' hgnat' hinv.start_node
              (mdist start cur) st.nodes.length (by omega) cur ncur hncur hncurg
          exact ⟨_, rfl, hlen, hhead, hlast, hchain⟩
        · rw [if_neg hcg]
          simp only [hncur, hncurg]
          have hclnd : (cur :: st.closed).Nodup :=
            List.nodup_cons.mpr ⟨hcc, hinv.closed_nodup⟩
          have h0' : AInv0 pf start ⟨rest, cur :: st.closed, st.nodes⟩ := by
            refine ⟨?_, hinv.nodes_g, ?_, hinv.start_node, ?_, ?_, ?_, hclnd⟩
            · intro c hc
              rcases List.mem_cons.mp hc with rfl | hc'
              · exact ⟨ncur, hncur, hncurg⟩
              · exact hinv.closed_g c hc'
            · intro p n hp
              refine ⟨(hinv.parent_rel p n hp).1, ?_⟩
              intro q hq
              obtain ⟨h1, h2, h3⟩ := (hinv.parent_rel p n hp).2 q hq
              exact ⟨List.mem_cons_of_mem _ h1, h2, h3⟩
            · rcases hinv.start_mem with hs | hs
              · exact Or.inl (List.mem_cons_of_mem _ hs)
              · rcases List.mem_cons.mp ((hperm.mem_iff).mpr hs) with rfl | hs'
                · exact Or.inl (List.mem_cons_self _ _)
                · exact Or.inr hs'
            · intro p hp
              exact hinv.open_noded p ((hperm.mem_iff).mp (List.mem_cons_of_mem _ hp))
            · intro p n hp
              rcases hinv.noded_mem p n hp with hc | ho
              · exact Or.inl (List.mem_cons_of_mem _ hc)
              · rcases List.mem_cons.mp ((hperm.mem_iff).mpr ho) with rfl | ho'
                · exact Or.inl (List.mem_cons_self _ _)
                · exact Or.inr ho'
          have hf' : FrontInv pf start cur (pf.getNeighbors cur)
              ⟨rest, cur :: st.closed, st.nodes⟩ := by
            intro c hc k hvk hck hkc
            rcases List.mem_cons.mp hc with rfl | hc'
            · exact Or.inr ⟨rfl, (mem_getNeighbors pf c k).mpr ⟨hvk, hck⟩⟩
            · have hkc' : k ∉ st.closed := fun hh => hkc (List.mem_cons_of_mem _ hh)
              obtain ⟨n', gq, hn', hg', hle', hko'⟩ :=
                hinv.frontier c hc' k hvk hck hkc'
              have hkr : k ∈ rest := by
                rcases List.mem_cons.mp ((hperm.mem_iff).mpr hko') with rfl | h
                · exact absurd (List.mem_cons_self _ _) hkc
                · exact h
              exact Or.inl ⟨n', gq, hn', hg', hle', hkr⟩
          obtain ⟨hA, hF, hcl, hlen2⟩ := relaxFold_inv pf start cur hterr
            (pf.getNeighbors cur) ⟨rest, cur :: st.closed, st.nodes⟩
            (fun nb hnb => (mem_getNeighbors pf cur nb).mp hnb)
            h0' hf' (List.mem_cons_self _ _)
          apply ih
          · refine ⟨hA, ?_⟩
            intro c hc k hvk hck hkc
            rcases hF c hc k hvk hck hkc with hL | ⟨_, hk⟩
            · exact hL
            · exact absurd hk (List.not_mem_nil _)
          · rw [hcl]
            intro hmem
            rcases List.mem_cons.mp hmem with hh | hh
            · exact hcg hh.symm
            · exact hgc hh
          · have hnbr := getNeighbors_length_le pf cur
            have hclval : ∀ c ∈ cur :: st.closed, validPos pf c := by
              intro c hcm
              rcases List.mem_cons.mp hcm with rfl | hcm'
              · exact hvcur
              · obtain ⟨n', hn', _⟩ := hinv.closed_g c hcm'
                exact (hinv.nodes_g c n' hn').1
            have hcnt := valid_nodup_length_le pf (cur :: st.closed) hclnd hclval
            rw [hcl]
            rw [List.length_cons] at hcnt ⊢
            simp only at hlen2
            omega

/-- Claim C3: on a grid where every terrain weight is the default 1.0,
with no blocked cells and in-bounds start and goal, `find_path` succeeds
and returns the ordered list of grid cells from start to goal inclusive:
it has length `manhattan_distance(start, goal) + 1` (a single cell when
start equals goal), starts at the start cell, ends at the goal cell, and
each consecutive pair of cells is grid-adjacent. -/
theorem find_path_uniform_grid (pf : Pathfinder) (start goal : Position)
    (hterr : ∀ p, pf.getTerrainWeight p = 1)
    (hvs : validPos pf start) (hvg : validPos pf goal) :
    ∃ path, pf.findPath start goal [] = some path ∧
      path.length = mdist start goal + 1 ∧
      path.head? = some start ∧ path.getLast? = some goal ∧
      List.Chain' (fun a b => mdist a b = 1) path := by
  have hinit : AInv pf start ⟨[start], [], [(start, ⟨some 0, none⟩)]⟩ := by
    refine ⟨⟨?_, ?_, ?_, ?_, ?_, ?_, ?_, List.nodup_nil⟩, ?_⟩
    · intro c hc
      exact absurd hc (List.not_mem_nil _)
    · intro p n hp
      simp only [alookup] at hp
      split at hp
      · rename_i hsp
        injection hp with hpe
        subst hpe
        subst hsp
        exact ⟨hvs, 0, by simp, by simp [mdist_self]⟩
      · exact absurd hp (by simp)
    · intro p n hp
      simp only [alookup] at hp
      split at hp
      · rename_i hsp
        injection hp with hpe
        subst hpe
        subst hsp
        exact ⟨fun _ => rfl, fun q hq => by simp at hq⟩
      · exact absurd hp (by simp)
    · rw [alookup, if_pos rfl]
    · exact Or.inr (List.mem_singleton.mpr rfl)
    · intro p hp
      rw [List.mem_singleton] at hp
      subst hp
      exact ⟨⟨some 0, none⟩, by rw [alookup, if_pos rfl]⟩
    · intro p n hp
      simp only [alookup] at hp
      split at hp
      · rename_i hsp
        exact Or.inr (List.mem_singleton.mpr hsp.symm)
      · exact absurd hp (by simp)
    · intro c hc
      exact absurd hc (List.not_mem_nil _)
  obtain ⟨path, hrun, h1, h2, h3, h4⟩ := astarLoop_success pf start goal hterr hvg
    (5 * pf.gridWidth * pf.gridHeight + 2) ⟨[start], [], [(start, ⟨some 0, none⟩)]⟩
    hinit (List.not_mem_nil _)
    (by
      have h5 : 5 * pf.gridWidth * pf.gridHeight =
          5 * (pf.gridWidth * pf.gridHeight) := by ring
      simp only [List.length_singleton, List.length_nil]
      omega)
  refine ⟨path, ?_, h1, h2, h3, h4⟩
  rw [Pathfinder.findPath]
  rw [if_neg (not_not_intro ⟨(isValidPosition_iff pf start).mpr hvs,
    (isValidPosition_iff pf goal).mpr hvg⟩)]
  rw [if_neg (List.not_mem_nil _)]
  exact hrun

/-- The default 40x40 pathfinder with no stored terrain weights. -/
def c3Pathfinder : Pathfinder := ⟨40, 40, []⟩

theorem find_path_uniform_grid_witness :
    ((∀ p, c3Pathfinder.getTerrainWeight p = 1) ∧
        validPos c3Pathfinder ⟨3, 4⟩ ∧ validPos c3Pathfinder ⟨7, 9⟩) ∧
      ∃ path, c3Pathfinder.findPath ⟨3, 4⟩ ⟨7, 9⟩ [] = some path ∧
        path.length = mdist ⟨3, 4⟩ ⟨7, 9⟩ + 1 ∧
        path.head? = some ⟨3, 4⟩ ∧ path.getLast? = some ⟨7, 9⟩ ∧
        List.Chain' (fun a b => mdist a b = 1) path :=
  ⟨⟨fun p => rfl, ⟨by decide, by decide⟩, ⟨by decide, by decide⟩⟩,
    find_path_uniform_grid c3Pathfinder ⟨3, 4⟩ ⟨7, 9⟩ (fun p => rfl)
      ⟨by decide, by decide⟩ ⟨by decide, by decide⟩⟩
